import Mathlib

/-!
# Response compression middleware (router/internal/compression)

Shallow embedding of `middleware.go`: `NewMiddleware` builds a go-chi
`middleware.Compressor` at `compressionLevel`, registers the three encoder
functions of the package (`deflate`, `gzip`, `br`, in that order) and returns
`compressor.Handler`.

The package delegates negotiation, the content-type gate and the response
writer to the imported `github.com/go-chi/chi/v5/middleware` package
(`compress.go`), and the codecs to `compress/gzip`, `compress/flate` and
`github.com/andybalholm/brotli`.  The embedding follows those functions as
they are called from `NewMiddleware`; every such definition says which
library function it follows.  Byte-level codec output is kept abstract.
-/

namespace Compression

/-! ## Go strings -/

/-- A Go string, as its sequence of characters. -/
abbrev GoString := List Char

/-- A byte slice. -/
abbrev Bytes := List UInt8

/-- Follows `strings.ToLower`.  ASCII letters are lowered and every other
character is kept; Go additionally folds non-ASCII letters, so the two agree
on ASCII strings (see `isASCII`). -/
def ToLower (s : GoString) : GoString := s.map Char.toLower

/-- Every character of the string is below U+0080. -/
def isASCII (s : GoString) : Bool := s.all (fun c => c.toNat < 128)

/-- Follows `strings.HasPrefix(s, prefix)`. -/
def HasPrefix : GoString → GoString → Bool
  | _, [] => true
  | [], _ :: _ => false
  | c :: s, p :: ps => c == p && HasPrefix s ps

/-- Follows `strings.HasSuffix(s, suffix)`. -/
def HasSuffix (s suffix : GoString) : Bool := HasPrefix s.reverse suffix.reverse

/-- Follows `strings.TrimSuffix(s, suffix)`. -/
def TrimSuffix (s suffix : GoString) : GoString :=
  if HasSuffix s suffix then s.take (s.length - suffix.length) else s

/-- Follows `strings.Contains(s, substr)`. -/
def Contains : GoString → GoString → Bool
  | [], substr => substr.isEmpty
  | c :: cs, substr => HasPrefix (c :: cs) substr || Contains cs substr

/-- Follows `strings.Split(s, sep)` for a one-character separator: the pieces
between the separators, `[""]` for the empty string. -/
def Split : GoString → Char → List GoString
  | [], _ => [[]]
  | c :: cs, sep =>
    if c = sep then [] :: Split cs sep
    else
      match Split cs sep with
      | [] => [[c]]
      | t :: ts => (c :: t) :: ts

/-- Follows `strings.Index(s, sep)` for a one-character separator; `none` is
Go's `-1`. -/
def Index : GoString → Char → Option Nat
  | [], _ => none
  | c :: cs, sep => if c = sep then some 0 else (Index cs sep).map (· + 1)

/-- Follows `strings.Join(elems, sep)` for a one-character separator. -/
def Join : List GoString → Char → GoString
  | [], _ => []
  | [a], _ => a
  | a :: b :: rest, sep => a ++ sep :: Join (b :: rest) sep

/-! ## net/http -/

/-- Follows `validHeaderFieldByte` of `net/textproto`: the characters of an RFC
7230 token, letters, digits and the listed marks. -/
def validHeaderFieldByte (c : Char) : Bool :=
  c.isAlphanum || "!#$%&'*+-.^_`|~".toList.contains c

/-- The canonicalising loop of `canonicalMIMEHeaderKey`: the first letter and
every letter after a `-` is raised, every other letter lowered. -/
def canonicalLoop : Bool → GoString → GoString
  | _, [] => []
  | upper, c :: cs =>
    let c' :=
      if upper && c.isLower then c.toUpper
      else if !upper && c.isUpper then c.toLower
      else c
    c' :: canonicalLoop (c' == '-') cs

/-- Follows `textproto.CanonicalMIMEHeaderKey`: a key made of token characters
only is brought to the form `Content-Type`; a key with any other character (a
space included) is returned unchanged. -/
def CanonicalMIMEHeaderKey (s : GoString) : GoString :=
  if s.all validHeaderFieldByte then canonicalLoop true s else s

/-- An `http.Header`: the values stored under each key of the map.  The methods
below store and look up under the canonical form of the key they are given. -/
abbrev Header := GoString → List GoString

namespace Header

/-- A header map without entries. -/
def empty : Header := fun _ => []

/-- Follows `Header.Get`: the first value under the canonical key, `""` when
there is none. -/
def Get (h : Header) (key : GoString) : GoString :=
  (h (CanonicalMIMEHeaderKey key)).headD []

/-- Follows `Header.Set`: the canonical key holds exactly this value
afterwards. -/
def Set (h : Header) (key value : GoString) : Header :=
  fun k => if k = CanonicalMIMEHeaderKey key then [value] else h k

/-- Follows `Header.Add`: the value is appended to the values of the canonical
key. -/
def Add (h : Header) (key value : GoString) : Header :=
  fun k => if k = CanonicalMIMEHeaderKey key then h k ++ [value] else h k

/-- Follows `Header.Del`: the canonical key holds no value afterwards. -/
def Del (h : Header) (key : GoString) : Header :=
  fun k => if k = CanonicalMIMEHeaderKey key then [] else h k

end Header

/-- Header keys used by the middleware. -/
def acceptEncodingKey : GoString := "Accept-Encoding".toList
/-- Key of the response header naming the applied encoding. -/
def contentEncodingKey : GoString := "Content-Encoding".toList
/-- Key of the response header declaring the media type. -/
def contentTypeKey : GoString := "Content-Type".toList
/-- Key of the response header giving the body length. -/
def contentLengthKey : GoString := "Content-Length".toList
/-- Key of the response header listing the request headers the response depends on. -/
def varyKey : GoString := "Vary".toList

/-- The `http.ResponseWriter` the server hands to the handler chain: the header
map the handler mutates, and what has gone to the client (status, the header
as it stood when the status line was written, body bytes).  The first
`WriteHeader` fixes status and header; a `Write` before it implies
`WriteHeader(200)`. -/
structure ResponseWriter where
  header : Header
  wroteHeader : Bool
  status : Nat
  sentHeader : Header
  body : Bytes

namespace ResponseWriter

/-- A response on which nothing has been set or written. -/
def fresh : ResponseWriter :=
  { header := Header.empty, wroteHeader := false, status := 0,
    sentHeader := Header.empty, body := [] }

/-- Follows `ResponseWriter.WriteHeader`: only the first call takes effect. -/
def WriteHeader (w : ResponseWriter) (code : Nat) : ResponseWriter :=
  if w.wroteHeader then w
  else { w with wroteHeader := true, status := code, sentHeader := w.header }

/-- Follows `ResponseWriter.Write`. -/
def Write (w : ResponseWriter) (p : Bytes) : ResponseWriter :=
  let w := if w.wroteHeader then w else w.WriteHeader 200
  { w with body := w.body ++ p }

/-- What the server does when the handler chain returns: a response whose
header was never written is sent with status 200. -/
def finish (w : ResponseWriter) : ResponseWriter :=
  if w.wroteHeader then w else w.WriteHeader 200

end ResponseWriter

/-! ## Encoders -/

/-- A compressing `io.Writer` wrapped around a destination writer.  Its state is
the sequence of chunks written so far; `write` and `close` give the bytes it
hands to the destination.  `resettable` says whether the Go value has a
`Reset(io.Writer)` method (chi's `ioResetterWriter`). -/
structure Encoder where
  resettable : Bool
  write : List Bytes → Bytes → Bytes
  close : List Bytes → Bytes

/-- Follows chi's `EncoderFunc`, `func(w io.Writer, level int) io.Writer`; `none`
is a nil writer. -/
abbrev EncoderFunc := Int → Option Encoder

/-- The codec constructors imported by `middleware.go`: `gzip.NewWriterLevel`,
`flate.NewWriter` and `brotli.NewWriterV2`. -/
structure Codecs where
  gzipNewWriterLevel : Int → Except String Encoder
  flateNewWriter : Int → Except String Encoder
  brotliNewWriterV2 : Int → Encoder

/-- Level constants of `compress/flate` (re-exported by `compress/gzip`). -/
def NoCompression : Int := 0
/-- Level constant `flate.BestSpeed`. -/
def BestSpeed : Int := 1
/-- Level constant `flate.BestCompression`. -/
def BestCompression : Int := 9
/-- Level constant `flate.DefaultCompression`. -/
def DefaultCompression : Int := -1
/-- Level constant `flate.HuffmanOnly`. -/
def HuffmanOnly : Int := -2

/-- The Go standard library's constructors with their level checks, over given
stream behaviours: `gzip.NewWriterLevel` rejects
`level < HuffmanOnly || level > BestCompression`; `flate.NewWriter` accepts
`NoCompression`, `HuffmanOnly`, `BestSpeed`, `DefaultCompression` and
`2 <= level && level <= 9` and rejects the rest; `brotli.NewWriterV2` never
fails. -/
def goCodecs (gz fl br : Int → Encoder) : Codecs where
  gzipNewWriterLevel level :=
    if level < HuffmanOnly ∨ level > BestCompression then
      .error "gzip: invalid compression level"
    else .ok (gz level)
  flateNewWriter level :=
    if level = NoCompression then .ok (fl level)
    else if level = HuffmanOnly then .ok (fl level)
    else if level = BestSpeed then .ok (fl level)
    else if level = DefaultCompression then .ok (fl level)
    else if 2 ≤ level ∧ level ≤ 9 then .ok (fl level)
    else .error "flate: invalid compression level"
  brotliNewWriterV2 level := br level

/-! ## middleware.go -/

/-- The constant `compressionLevel`. -/
def compressionLevel : Int := 5

/-- Embeds `encoderBrotli`. -/
def encoderBrotli (lib : Codecs) (level : Int) : Option Encoder :=
  some (lib.brotliNewWriterV2 level)

/-- Embeds `encoderGzip`: nil when `gzip.NewWriterLevel` returns an error. -/
def encoderGzip (lib : Codecs) (level : Int) : Option Encoder :=
  match lib.gzipNewWriterLevel level with
  | .error _ => none
  | .ok gw => some gw

/-- Embeds `encoderDeflate`: nil when `flate.NewWriter` returns an error. -/
def encoderDeflate (lib : Codecs) (level : Int) : Option Encoder :=
  match lib.flateNewWriter level with
  | .error _ => none
  | .ok dw => some dw

/-! ## chi: the Compressor -/

/-- The encoding names registered by `NewMiddleware`. -/
def deflateName : GoString := ['d', 'e', 'f', 'l', 'a', 't', 'e']
/-- The name `gzip`. -/
def gzipName : GoString := ['g', 'z', 'i', 'p']
/-- The name `br`. -/
def brName : GoString := ['b', 'r']

/-- Follows chi's `defaultCompressibleContentTypes`. -/
def defaultCompressibleContentTypes : List GoString :=
  [ "text/html".toList, "text/css".toList, "text/plain".toList,
    "text/javascript".toList, "application/javascript".toList,
    "application/x-javascript".toList, "application/json".toList,
    "application/atom+xml".toList, "application/rss+xml".toList,
    "image/svg+xml".toList ]

/-- Follows chi's `Compressor`.  The two encoder maps are functions from the
name; a pool is represented by the function that fills it. -/
structure Compressor where
  encoders : GoString → Option EncoderFunc
  pooledEncoders : GoString → Option EncoderFunc
  allowedTypes : List GoString
  allowedWildcards : List GoString
  encodingPrecedence : List GoString
  level : Int

/-- One iteration of the removal loop of `SetEncoder`,
`if v == encoding { c.encodingPrecedence = append(c.encodingPrecedence[:i], c.encodingPrecedence[i+1:]...) }`,
on the backing array `arr` ranged over and the current length `len` of
`c.encodingPrecedence`, which shares that array.  The append shifts the
elements `i+1 .. len-1` one place down inside the array; `none` is the
slice-bounds panic of `[i+1:]`. -/
def removeStep (encoding : GoString) (st : List GoString × Nat) (i : Nat) :
    Option (List GoString × Nat) :=
  let (arr, len) := st
  if arr.getD i [] = encoding then
    if i + 1 ≤ len then
      some (arr.take i ++ (arr.drop (i + 1)).take (len - (i + 1)) ++ arr.drop (len - 1), len - 1)
    else none
  else some (arr, len)

/-- The removal loop of `SetEncoder` over the indices of the original slice;
the result is `c.encodingPrecedence` after the loop. -/
def removeEncoding (precedence : List GoString) (encoding : GoString) :
    Option (List GoString) :=
  ((List.range precedence.length).foldlM (removeStep encoding)
      (precedence, precedence.length)).map (fun st => st.1.take st.2)

/-- Follows chi's `Compressor.SetEncoder` (for a non-nil `fn`): the name is
lowered, dropped from both maps, the function is tried once against a discard
writer at the compressor's level and filed under the pooled encoders when the
writer is non-nil and resettable, under the plain encoders otherwise; the
name is removed from the precedence list and put at its front.  An error is a
Go panic. -/
def Compressor.SetEncoder (c : Compressor) (encoding : GoString) (fn : EncoderFunc) :
    Except String Compressor :=
  let encoding := ToLower encoding
  if encoding = [] then .error "the encoding can not be empty"
  else
    let pooled₀ : GoString → Option EncoderFunc :=
      fun k => if k = encoding then none else c.pooledEncoders k
    let encoders₀ : GoString → Option EncoderFunc :=
      fun k => if k = encoding then none else c.encoders k
    let pooled : GoString → Option EncoderFunc :=
      match fn c.level with
      | some encoder =>
        if encoder.resettable then fun k => if k = encoding then some fn else pooled₀ k
        else pooled₀
      | none => pooled₀
    let encoders : GoString → Option EncoderFunc :=
      if (pooled encoding).isSome then encoders₀
      else fun k => if k = encoding then some fn else encoders₀ k
    match removeEncoding c.encodingPrecedence encoding with
    | none => .error "slice bounds out of range"
    | some precedence =>
      .ok { c with
        encoders := encoders
        pooledEncoders := pooled
        encodingPrecedence := encoding :: precedence }

/-- The classification of the content types in `NewCompressor`: a pattern with
a `*` other than a trailing `/*` panics, a trailing `/*` goes to the wildcards
(without the suffix), anything else to the exact types. -/
def classifyTypes : List GoString → List GoString × List GoString →
    Except String (List GoString × List GoString)
  | [], acc => .ok acc
  | t :: ts, (allowedTypes, allowedWildcards) =>
    if Contains (TrimSuffix t ['/', '*']) ['*'] then
      .error "middleware/compress: Unsupported content-type wildcard pattern"
    else if HasSuffix t ['/', '*'] then
      classifyTypes ts (allowedTypes, TrimSuffix t ['/', '*'] :: allowedWildcards)
    else classifyTypes ts (t :: allowedTypes, allowedWildcards)

/-- Follows chi's `NewCompressor(level, types...)`: the given types, or the
default list when none is given; then the default encoders `deflate` and
`gzip` are set (chi's own `encoderDeflate` and `encoderGzip`, which read the
same as the ones of `middleware.go`). -/
def NewCompressor (lib : Codecs) (level : Int) (types : List GoString) :
    Except String Compressor := do
  let (allowedTypes, allowedWildcards) ←
    if types.length > 0 then classifyTypes types ([], [])
    else pure (defaultCompressibleContentTypes, [])
  let c : Compressor :=
    { encoders := fun _ => none
      pooledEncoders := fun _ => none
      allowedTypes := allowedTypes
      allowedWildcards := allowedWildcards
      encodingPrecedence := []
      level := level }
  let c ← c.SetEncoder deflateName (encoderDeflate lib)
  let c ← c.SetEncoder gzipName (encoderGzip lib)
  pure c

/-- Embeds `NewMiddleware` up to `return compressor.Handler`: the compressor
the returned handler is a method of. -/
def NewMiddleware (lib : Codecs) : Except String Compressor := do
  let compressor ← NewCompressor lib compressionLevel []
  let compressor ← compressor.SetEncoder deflateName (encoderDeflate lib)
  let compressor ← compressor.SetEncoder gzipName (encoderGzip lib)
  let compressor ← compressor.SetEncoder brName (encoderBrotli lib)
  pure compressor

/-- The names in the order `NewMiddleware` registers them. -/
def registrationOrder : List GoString := [deflateName, gzipName, brName]

/-- Follows chi's `matchAcceptEncoding`: some accepted token contains the
encoding name. -/
def matchAcceptEncoding : List GoString → GoString → Bool
  | [], _ => false
  | v :: accepted, encoding =>
    if Contains v encoding then true else matchAcceptEncoding accepted encoding

/-- The loop of `selectEncoder` over the precedence list. -/
def selectLoop (c : Compressor) (accepted : List GoString) :
    List GoString → Option Encoder × GoString
  | [] => (none, [])
  | name :: rest =>
    if matchAcceptEncoding accepted name then
      match c.pooledEncoders name with
      | some fn => (fn c.level, name)
      | none =>
        match c.encoders name with
        | some fn => (fn c.level, name)
        | none => selectLoop c accepted rest
    else selectLoop c accepted rest

/-- Follows chi's `Compressor.selectEncoder`: the `Accept-Encoding` value is
lowered and split at the commas, and the first name of the precedence list
matched by `matchAcceptEncoding` is taken, with a writer from its pool (a
pooled writer is reset onto the response, which leaves it as new) or from its
encoder function.  The result is the writer and the encoding name, `""` when
no name matches. -/
def Compressor.selectEncoder (c : Compressor) (h : Header) : Option Encoder × GoString :=
  let header := h.Get acceptEncodingKey
  let accepted := Split (ToLower header) ','
  selectLoop c accepted c.encodingPrecedence

/-! ## chi: the response writer -/

/-- The test of `isCompressable` on the `Content-Type` value: the value up to
the first `;` is looked up among the exact types, then its part before the
first `/` among the wildcards. -/
def allowsContentType (contentTypes contentWildcards : List GoString)
    (contentType : GoString) : Bool :=
  let contentType :=
    match Index contentType ';' with
    | some idx => contentType.take idx
    | none => contentType
  if contentType ∈ contentTypes then true
  else
    match Index contentType '/' with
    | some idx => if idx > 0 then decide (contentType.take idx ∈ contentWildcards) else false
    | none => false

/-- Follows chi's `compressResponseWriter`.  `w` is the encoder when one was
selected (`none`: `cw.w` is the response writer itself); `written` is what the
encoder has been given so far. -/
structure compressResponseWriter where
  ResponseWriter : Compression.ResponseWriter
  w : Option Encoder
  written : List Bytes
  contentTypes : List GoString
  contentWildcards : List GoString
  encoding : GoString
  wroteHeader : Bool
  compressable : Bool

namespace compressResponseWriter

/-- Follows `isCompressable`: the gate applied to the `Content-Type` of the
response header. -/
def isCompressable (cw : compressResponseWriter) : Bool :=
  allowsContentType cw.contentTypes cw.contentWildcards
    (cw.ResponseWriter.header.Get contentTypeKey)

/-- Follows `WriteHeader`: a repeated call is passed on; the first call keeps
an already present `Content-Encoding`, leaves a response that is not
compressable alone, and otherwise, when an encoding was selected, marks the
response compressable, sets `Content-Encoding`, adds `Vary: Accept-Encoding`
and deletes `Content-Length`.  The deferred `WriteHeader` of the wrapped
writer runs last. -/
def WriteHeader (cw : compressResponseWriter) (code : Nat) : compressResponseWriter :=
  if cw.wroteHeader then
    { cw with ResponseWriter := cw.ResponseWriter.WriteHeader code }
  else
    let cw := { cw with wroteHeader := true }
    let cw :=
      if cw.ResponseWriter.header.Get contentEncodingKey ≠ [] then cw
      else if !cw.isCompressable then { cw with compressable := false }
      else if cw.encoding ≠ [] then
        { cw with
          compressable := true
          ResponseWriter :=
            { cw.ResponseWriter with
              header :=
                ((cw.ResponseWriter.header.Set contentEncodingKey cw.encoding).Add
                  varyKey acceptEncodingKey).Del contentLengthKey } }
      else cw
    { cw with ResponseWriter := cw.ResponseWriter.WriteHeader code }

/-- Follows `Write`: `WriteHeader(200)` first if no header was written, then
the bytes go to `cw.writer()`, the encoder when the response is compressable
and the wrapped writer otherwise. -/
def Write (cw : compressResponseWriter) (p : Bytes) : compressResponseWriter :=
  let cw := if !cw.wroteHeader then cw.WriteHeader 200 else cw
  if cw.compressable then
    match cw.w with
    | some e =>
      { cw with
        ResponseWriter := cw.ResponseWriter.Write (e.write cw.written p)
        written := cw.written ++ [p] }
    | none => { cw with ResponseWriter := cw.ResponseWriter.Write p }
  else { cw with ResponseWriter := cw.ResponseWriter.Write p }

/-- Follows `Close`: `cw.writer()` is closed when it is an `io.WriteCloser`, which
the encoders are and the wrapped response writer is not. -/
def Close (cw : compressResponseWriter) : compressResponseWriter :=
  if cw.compressable then
    match cw.w with
    | some e => { cw with ResponseWriter := cw.ResponseWriter.Write (e.close cw.written) }
    | none => cw
  else cw

end compressResponseWriter

/-! ## Handlers -/

/-- A status code that ends the response header: 101 or one of 200..999.
(`WriteHeader` panics on a code outside 100..999 and sends an informational
1xx code without ending the header; handlers doing that are outside the
embedding.) -/
structure StatusCode where
  code : Nat
  final : code = 101 ∨ (200 ≤ code ∧ code ≤ 999)

/-- What a handler does with its response writer: call `Set`, `Add` or `Del` on
its header map, write the status line, write body bytes. -/
inductive HandlerOp where
  | headerSet (key value : GoString)
  | headerAdd (key value : GoString)
  | headerDel (key : GoString)
  | writeHeader (code : StatusCode)
  | write (p : Bytes)

/-- A handler, as the sequence of its calls on the response writer. -/
abbrev HandlerProg := List HandlerOp

/-- The header map after a header call; other calls leave it alone. -/
def HandlerOp.onHeader (op : HandlerOp) (h : Header) : Header :=
  match op with
  | .headerSet k v => h.Set k v
  | .headerAdd k v => h.Add k v
  | .headerDel k => h.Del k
  | .writeHeader _ => h
  | .write _ => h

/-- One handler call on the server's own response writer. -/
def HandlerOp.direct (op : HandlerOp) (w : ResponseWriter) : ResponseWriter :=
  match op with
  | .writeHeader code => w.WriteHeader code.code
  | .write p => w.Write p
  | op => { w with header := op.onHeader w.header }

/-- One handler call on the compressing response writer; `cw.Header()` is the
header map of the wrapped writer. -/
def HandlerOp.wrapped (op : HandlerOp) (cw : compressResponseWriter) : compressResponseWriter :=
  match op with
  | .writeHeader code => cw.WriteHeader code.code
  | .write p => cw.Write p
  | op => { cw with ResponseWriter := { cw.ResponseWriter with header := op.onHeader cw.ResponseWriter.header } }

/-- The handler run without the middleware, and the response finished by the
server. -/
def serveDirect (next : HandlerProg) (w : ResponseWriter) : ResponseWriter :=
  (next.foldl (fun w op => op.direct w) w).finish

/-- Follows chi's `Compressor.Handler` for a request with header `r`: an encoder
is selected, the handler runs on a `compressResponseWriter` around `w`, and
the deferred `cw.Close()` runs.  The result is the wrapped response writer
(before the server finishes the response). -/
def Compressor.Handler (c : Compressor) (next : HandlerProg) (r : Header)
    (w : ResponseWriter) : ResponseWriter :=
  let (encoder, encoding) := c.selectEncoder r
  let cw : compressResponseWriter :=
    { ResponseWriter := w
      w := encoder
      written := []
      contentTypes := c.allowedTypes
      contentWildcards := c.allowedWildcards
      encoding := encoding
      wroteHeader := false
      compressable := false }
  let cw := next.foldl (fun cw op => op.wrapped cw) cw
  cw.Close.ResponseWriter

/-- A request served through the middleware of `NewMiddleware`: the response as
it reaches the client, or the panic of the construction. -/
def serve (lib : Codecs) (next : HandlerProg) (r : Header) : Except String ResponseWriter :=
  (NewMiddleware lib).map (fun c => (c.Handler next r ResponseWriter.fresh).finish)

/-- The request header with the given `Accept-Encoding` value and nothing else. -/
def acceptEncoding (value : GoString) : Header :=
  Header.empty.Set acceptEncodingKey value

/-- The encoding name the middleware of `NewMiddleware` selects for a request
header; `""` is identity. -/
def negotiate (lib : Codecs) (r : Header) : Except String GoString :=
  (NewMiddleware lib).map (fun c => (c.selectEncoder r).2)

/-- The handler of `TestMiddleware`: `Content-Type: application/json` is added
and the body written in one call. -/
def jsonHandler (body : Bytes) : HandlerProg :=
  [.headerAdd contentTypeKey "application/json".toList, .write body]

/-! ## Vocabulary of the statements -/

/-- The encoding name preferred among the accepted tokens: the first of `br`,
`gzip`, `deflate` that `matchAcceptEncoding` finds, `""` when none is. -/
def preferred (accepted : List GoString) : GoString :=
  if matchAcceptEncoding accepted brName then brName
  else if matchAcceptEncoding accepted gzipName then gzipName
  else if matchAcceptEncoding accepted deflateName then deflateName
  else []

/-- The header map a handler declares: the map as it stands when the handler
first writes the status line or body bytes, or when it returns. -/
def declaredHeader : HandlerProg → Header → Header
  | [], h => h
  | .writeHeader _ :: _, h => h
  | .write _ :: _, h => h
  | op :: rest, h => declaredHeader rest (op.onHeader h)

/-- The body bytes a handler writes, in order. -/
def writtenBytes : HandlerProg → Bytes
  | [] => []
  | .write p :: rest => p ++ writtenBytes rest
  | _ :: rest => writtenBytes rest

/-- The body of `TestMiddleware`, the 22 bytes of its `testStr`. -/
def testStr : Bytes :=
  "\x7b\"data\":\x7b\"foo\":\"bar\"\x7d\x7d".toList.map (fun c => c.toNat.toUInt8)

/-- A writer that hands every chunk on as it is and adds nothing on close. -/
def storedWriter : Encoder :=
  { resettable := true, write := fun _ p => p, close := fun _ => [] }

/-- A codec library to instantiate statements at: the standard level checks
over stored writers.  Nothing stated about headers depends on the stream
format. -/
def sampleCodecs : Codecs :=
  goCodecs (fun _ => storedWriter) (fun _ => storedWriter) (fun _ => storedWriter)

/-- The text of a q-value: digits and dots. -/
def isQValue (q : GoString) : Bool := q.all (fun c => c.isDigit || c == '.')

/-- A handler that declares `application/json`, sets a `Content-Encoding` of its
own and writes the body in one call. -/
def preEncodedHandler (encoding : GoString) (body : Bytes) : HandlerProg :=
  [.headerSet contentTypeKey "application/json".toList,
    .headerSet contentEncodingKey encoding, .write body]

/-- A handler that declares `application/json` and returns without writing. -/
def silentHandler : HandlerProg :=
  [.headerSet contentTypeKey "application/json".toList]

/-- The handler writes the status line or body bytes at least once. -/
def commits : HandlerProg → Bool
  | [] => false
  | .writeHeader _ :: _ => true
  | .write _ :: _ => true
  | _ :: rest => commits rest

/-- The response header the compressor sends for a selected encoding: the
declared header with `Content-Encoding` set, `Vary: Accept-Encoding` added and
`Content-Length` deleted. -/
def compressedHeader (declared : Header) (encoding : GoString) : Header :=
  ((declared.Set contentEncodingKey encoding).Add varyKey acceptEncodingKey).Del
    contentLengthKey

/-- The handler call names the header key, in any spelling with the same
canonical form. -/
def HandlerOp.touches (op : HandlerOp) (key : GoString) : Bool :=
  match op with
  | .headerSet k _ => CanonicalMIMEHeaderKey k == CanonicalMIMEHeaderKey key
  | .headerAdd k _ => CanonicalMIMEHeaderKey k == CanonicalMIMEHeaderKey key
  | .headerDel k => CanonicalMIMEHeaderKey k == CanonicalMIMEHeaderKey key
  | .writeHeader _ => false
  | .write _ => false

/-- The encoder function filed under a name, the pooled one first, as
`selectEncoder` looks it up. -/
def Compressor.encoderFor (c : Compressor) (k : GoString) : Option EncoderFunc :=
  match c.pooledEncoders k with
  | some fn => some fn
  | none => c.encoders k

/-- The writer `NewMiddleware` has registered under a name, made at
`compressionLevel`; nil for any other name. -/
def encoderOf (lib : Codecs) (name : GoString) : Option Encoder :=
  if name = brName then encoderBrotli lib compressionLevel
  else if name = gzipName then encoderGzip lib compressionLevel
  else if name = deflateName then encoderDeflate lib compressionLevel
  else none

/-- The request header `testRequestWithAcceptedEncodings` builds: the
encodings joined with commas under `Accept-Encoding`, no header for none.
(What Go's client transport does to a request without the header is outside
the embedding.) -/
def testRequest (encodings : List GoString) : Header :=
  if encodings.length > 0 then acceptEncoding (Join encodings ',') else Header.empty

/-- The table of `TestMiddleware`: accepted encodings and expected
`Content-Encoding`. -/
def testTable : List (List GoString × GoString) :=
  [ ([], []),
    ([brName], brName),
    ([gzipName], gzipName),
    ([deflateName], deflateName),
    ([gzipName, deflateName], gzipName),
    ([brName, gzipName], brName) ]

/-! ## The compressor built by NewMiddleware -/

theorem SetEncoder_spec (c : Compressor) (encoding : GoString) (fn : EncoderFunc)
    (prec : List GoString) (hne : ToLower encoding ≠ [])
    (hrem : removeEncoding c.encodingPrecedence (ToLower encoding) = some prec) :
    ∃ c', c.SetEncoder encoding fn = .ok c' ∧
      c'.encodingPrecedence = ToLower encoding :: prec ∧
      c'.level = c.level ∧ c'.allowedTypes = c.allowedTypes ∧
      c'.allowedWildcards = c.allowedWildcards ∧
      c'.encoderFor (ToLower encoding) = some fn ∧
      ∀ k, k ≠ ToLower encoding → c'.encoderFor k = c.encoderFor k := by
  unfold Compressor.SetEncoder
  simp only [hne, if_false, hrem]
  refine ⟨_, rfl, rfl, rfl, rfl, rfl, ?_, ?_⟩
  · cases hfn : fn c.level with
    | none => simp [Compressor.encoderFor]
    | some e => cases hr : e.resettable <;> simp [Compressor.encoderFor, hr]
  · intro k hk
    cases hfn : fn c.level with
    | none => simp [Compressor.encoderFor, hk]
    | some e => cases hr : e.resettable <;> simp [Compressor.encoderFor, hr, hk]

/-- The compressor of `NewMiddleware` exists for every codec library (no
panic); its precedence list is `br, gzip, deflate`, its level is
`compressionLevel`, its content types are chi's defaults without wildcards,
and the three names hold the three encoder functions of `middleware.go`. -/
theorem NewMiddleware_spec (lib : Codecs) :
    ∃ c, NewMiddleware lib = .ok c ∧
      c.encodingPrecedence = [brName, gzipName, deflateName] ∧
      c.level = compressionLevel ∧
      c.allowedTypes = defaultCompressibleContentTypes ∧
      c.allowedWildcards = [] ∧
      c.encoderFor brName = some (encoderBrotli lib) ∧
      c.encoderFor gzipName = some (encoderGzip lib) ∧
      c.encoderFor deflateName = some (encoderDeflate lib) := by
  let c₀ : Compressor :=
    { encoders := fun _ => none
      pooledEncoders := fun _ => none
      allowedTypes := defaultCompressibleContentTypes
      allowedWildcards := []
      encodingPrecedence := []
      level := compressionLevel }
  obtain ⟨c₁, h₁, p₁, l₁, t₁, w₁, -, -⟩ :=
    SetEncoder_spec c₀ deflateName (encoderDeflate lib) [] (by decide) (by decide)
  obtain ⟨c₂, h₂, p₂, l₂, t₂, w₂, -, -⟩ :=
    SetEncoder_spec c₁ gzipName (encoderGzip lib) [deflateName] (by decide)
      (by rw [p₁]; decide)
  obtain ⟨c₃, h₃, p₃, l₃, t₃, w₃, r₃, -⟩ :=
    SetEncoder_spec c₂ deflateName (encoderDeflate lib) [gzipName] (by decide)
      (by rw [p₂]; decide)
  obtain ⟨c₄, h₄, p₄, l₄, t₄, w₄, r₄, k₄⟩ :=
    SetEncoder_spec c₃ gzipName (encoderGzip lib) [deflateName] (by decide)
      (by rw [p₃]; decide)
  obtain ⟨c₅, h₅, p₅, l₅, t₅, w₅, r₅, k₅⟩ :=
    SetEncoder_spec c₄ brName (encoderBrotli lib) [gzipName, deflateName] (by decide)
      (by rw [p₄]; decide)
  refine ⟨c₅, ?_, ?_, ?_, ?_, ?_, ?_, ?_, ?_⟩
  · simp only [NewMiddleware, NewCompressor, List.length_nil, gt_iff_lt, lt_self_iff_false,
      if_false, bind, Except.bind, pure, Except.pure]
    rw [show (Compressor.SetEncoder _ deflateName (encoderDeflate lib)) = .ok c₁ from h₁]
    simp only [h₂, h₃, h₄, h₅]
  · rw [p₅]; rfl
  · rw [l₅, l₄, l₃, l₂, l₁]
  · rw [t₅, t₄, t₃, t₂, t₁]
  · rw [w₅, w₄, w₃, w₂, w₁]
  · exact r₅
  · rw [k₅ gzipName (by decide)]
    exact r₄
  · rw [k₅ deflateName (by decide), k₄ deflateName (by decide)]
    exact r₃

/-! ## Negotiation -/

theorem selectLoop_eq (c : Compressor) (accepted : List GoString) :
    ∀ prec : List GoString, (∀ k ∈ prec, ∃ fn, c.encoderFor k = some fn) →
      selectLoop c accepted prec =
        match prec.find? (fun n => matchAcceptEncoding accepted n) with
        | some name => ((c.encoderFor name).bind (fun fn => fn c.level), name)
        | none => (none, []) := by
  intro prec
  induction prec with
  | nil => intro _; rfl
  | cons name rest ih =>
    intro h
    obtain ⟨fn, hfn⟩ := h name (List.mem_cons_self _ _)
    have ih' := ih (fun k hk => h k (List.mem_cons_of_mem _ hk))
    simp only [selectLoop, List.find?_cons]
    cases hm : matchAcceptEncoding accepted name with
    | false => simpa using ih'
    | true =>
      simp only [if_true, hfn, Option.some_bind]
      cases hp : c.pooledEncoders name with
      | some g =>
        simp only [Compressor.encoderFor, hp, Option.some.injEq] at hfn
        rw [hfn]
      | none =>
        simp only [Compressor.encoderFor, hp] at hfn
        simp only [hfn]

/-- What `selectEncoder` returns on the compressor of `NewMiddleware`: the
preferred name among the tokens of the lowered header, with the writer
registered under it. -/
theorem selectEncoder_eq (lib : Codecs) (r : Header) :
    ∃ c, NewMiddleware lib = .ok c ∧
      c.selectEncoder r =
        (encoderOf lib (preferred (Split (ToLower (r.Get acceptEncodingKey)) ',')),
          preferred (Split (ToLower (r.Get acceptEncodingKey)) ',')) := by
  obtain ⟨c, hc, hp, hl, -, -, hb, hg, hd⟩ := NewMiddleware_spec lib
  refine ⟨c, hc, ?_⟩
  have hall : ∀ k ∈ c.encodingPrecedence, ∃ fn, c.encoderFor k = some fn := by
    intro k hk
    rw [hp] at hk
    simp only [List.mem_cons, List.mem_singleton, List.not_mem_nil, or_false] at hk
    rcases hk with rfl | rfl | rfl
    · exact ⟨_, hb⟩
    · exact ⟨_, hg⟩
    · exact ⟨_, hd⟩
  have hgb : gzipName ≠ brName := by decide
  have hdb : deflateName ≠ brName := by decide
  have hdg : deflateName ≠ gzipName := by decide
  simp only [Compressor.selectEncoder]
  rw [selectLoop_eq c _ _ hall, hp]
  simp only [preferred, List.find?_cons, List.find?_nil]
  cases matchAcceptEncoding (Split (ToLower (r.Get acceptEncodingKey)) ',') brName
  · cases matchAcceptEncoding (Split (ToLower (r.Get acceptEncodingKey)) ',') gzipName
    · cases matchAcceptEncoding (Split (ToLower (r.Get acceptEncodingKey)) ',') deflateName
      · have h1 : brName ≠ [] := by decide
        have h2 : gzipName ≠ [] := by decide
        have h3 : deflateName ≠ [] := by decide
        simp [encoderOf, h1, h2, h3]
      · simp [encoderOf, hd, hl, hdb, hdg]
    · simp [encoderOf, hg, hl, hgb]
  · simp [encoderOf, hb, hl]

/-- The name selected by the middleware of `NewMiddleware`, for every codec
library and request header. -/
theorem negotiate_eq (lib : Codecs) (r : Header) :
    negotiate lib r = .ok (preferred (Split (ToLower (r.Get acceptEncodingKey)) ',')) := by
  obtain ⟨c, hc, hs⟩ := selectEncoder_eq lib r
  simp only [negotiate, hc, Except.map, hs]

/-! ## The handler run directly -/

theorem ResponseWriter.Write_WriteHeader (w : ResponseWriter) (p : Bytes) :
    (w.WriteHeader 200).Write p = w.Write p := by
  cases h : w.wroteHeader <;> simp [ResponseWriter.Write, ResponseWriter.WriteHeader, h]

theorem direct_committed (next : HandlerProg) :
    ∀ w : ResponseWriter, w.wroteHeader = true →
      (next.foldl (fun w op => op.direct w) w).wroteHeader = true ∧
      (next.foldl (fun w op => op.direct w) w).sentHeader = w.sentHeader ∧
      (next.foldl (fun w op => op.direct w) w).status = w.status := by
  induction next with
  | nil => intro w h; exact ⟨h, rfl, rfl⟩
  | cons op rest ih =>
    intro w h
    simp only [List.foldl_cons]
    cases op with
    | headerSet k v => exact ih _ h
    | headerAdd k v => exact ih _ h
    | headerDel k => exact ih _ h
    | writeHeader code =>
      have : w.WriteHeader code.code = w := by simp [ResponseWriter.WriteHeader, h]
      simp only [HandlerOp.direct, this]
      exact ih _ h
    | write p =>
      have hw : (w.Write p).wroteHeader = true := by simp [ResponseWriter.Write, h]
      have hs : (w.Write p).sentHeader = w.sentHeader := by simp [ResponseWriter.Write, h]
      have ht : (w.Write p).status = w.status := by simp [ResponseWriter.Write, h]
      obtain ⟨a, b, c⟩ := ih _ hw
      exact ⟨a, b.trans hs, c.trans ht⟩

theorem direct_body (next : HandlerProg) :
    ∀ w : ResponseWriter,
      (next.foldl (fun w op => op.direct w) w).body = w.body ++ writtenBytes next := by
  induction next with
  | nil => intro w; simp [writtenBytes]
  | cons op rest ih =>
    intro w
    simp only [List.foldl_cons]
    rw [ih]
    cases op with
    | headerSet k v => simp [HandlerOp.direct, writtenBytes]
    | headerAdd k v => simp [HandlerOp.direct, writtenBytes]
    | headerDel k => simp [HandlerOp.direct, writtenBytes]
    | writeHeader code =>
      cases h : w.wroteHeader <;>
        simp [HandlerOp.direct, writtenBytes, ResponseWriter.WriteHeader, h]
    | write p =>
      cases h : w.wroteHeader <;>
        simp [HandlerOp.direct, writtenBytes, ResponseWriter.Write,
          ResponseWriter.WriteHeader, h]

theorem serveDirect_body (next : HandlerProg) (w : ResponseWriter) :
    (serveDirect next w).body = w.body ++ writtenBytes next := by
  unfold serveDirect ResponseWriter.finish
  split
  · exact direct_body next w
  · simp only [ResponseWriter.WriteHeader]
    split <;> exact direct_body next w

theorem serveDirect_sentHeader (next : HandlerProg) :
    ∀ w : ResponseWriter, w.wroteHeader = false →
      (serveDirect next w).sentHeader = declaredHeader next w.header := by
  induction next with
  | nil =>
    intro w h
    simp [serveDirect, ResponseWriter.finish, ResponseWriter.WriteHeader, h, declaredHeader]
  | cons op rest ih =>
    intro w h
    have key : ∀ w' : ResponseWriter, w'.wroteHeader = true → w'.sentHeader = w.header →
        (serveDirect rest w').sentHeader = w.header := by
      intro w' h1 h2
      obtain ⟨a, b, -⟩ := direct_committed rest w' h1
      simp only [serveDirect, ResponseWriter.finish, a, if_true]
      exact b.trans h2
    cases op with
    | headerSet k v => exact ih _ h
    | headerAdd k v => exact ih _ h
    | headerDel k => exact ih _ h
    | writeHeader code =>
      simp only [declaredHeader]
      exact key (w.WriteHeader code.code) (by simp [ResponseWriter.WriteHeader, h])
        (by simp [ResponseWriter.WriteHeader, h])
    | write p =>
      simp only [declaredHeader]
      exact key (w.Write p) (by simp [ResponseWriter.Write, ResponseWriter.WriteHeader, h])
        (by simp [ResponseWriter.Write, ResponseWriter.WriteHeader, h])

theorem declaredHeader_untouched (key : GoString) (next : HandlerProg) :
    ∀ h : Header, (∀ op ∈ next, op.touches key = false) →
      declaredHeader next h (CanonicalMIMEHeaderKey key) = h (CanonicalMIMEHeaderKey key) := by
  induction next with
  | nil => intro h _; rfl
  | cons op rest ih =>
    intro h hall
    have h0 := hall op (List.mem_cons_self _ _)
    have hr := ih (h := op.onHeader h) (fun o ho => hall o (List.mem_cons_of_mem _ ho))
    cases op with
    | headerSet k v =>
      simp only [HandlerOp.touches, beq_eq_false_iff_ne, ne_eq] at h0
      show declaredHeader rest ((HandlerOp.headerSet k v).onHeader h) _ = _
      rw [hr]
      simp only [HandlerOp.onHeader, Header.Set]
      rw [if_neg (fun e => h0 e.symm)]
    | headerAdd k v =>
      simp only [HandlerOp.touches, beq_eq_false_iff_ne, ne_eq] at h0
      show declaredHeader rest ((HandlerOp.headerAdd k v).onHeader h) _ = _
      rw [hr]
      simp only [HandlerOp.onHeader, Header.Add]
      rw [if_neg (fun e => h0 e.symm)]
    | headerDel k =>
      simp only [HandlerOp.touches, beq_eq_false_iff_ne, ne_eq] at h0
      show declaredHeader rest ((HandlerOp.headerDel k).onHeader h) _ = _
      rw [hr]
      simp only [HandlerOp.onHeader, Header.Del]
      rw [if_neg (fun e => h0 e.symm)]
    | writeHeader code => rfl
    | write p => rfl

theorem contentEncodingKey_canonical :
    CanonicalMIMEHeaderKey contentEncodingKey = contentEncodingKey := by decide

theorem contentTypeKey_canonical :
    CanonicalMIMEHeaderKey contentTypeKey = contentTypeKey := by decide

theorem contentLengthKey_canonical :
    CanonicalMIMEHeaderKey contentLengthKey = contentLengthKey := by decide

theorem varyKey_canonical : CanonicalMIMEHeaderKey varyKey = varyKey := by decide

theorem acceptEncodingKey_canonical :
    CanonicalMIMEHeaderKey acceptEncodingKey = acceptEncodingKey := by decide

/-- A handler that names `Content-Encoding` in no spelling leaves the declared
header without that key. -/
theorem declaredHeader_no_contentEncoding (next : HandlerProg)
    (hu : ∀ op ∈ next, op.touches contentEncodingKey = false) :
    declaredHeader next Header.empty contentEncodingKey = [] := by
  have h := declaredHeader_untouched contentEncodingKey next Header.empty hu
  rw [contentEncodingKey_canonical] at h
  exact h

/-! ## Pass-through -/

theorem WriteHeader_passthrough (cw : compressResponseWriter) (code : Nat)
    (hc : cw.compressable = false)
    (h : cw.wroteHeader = true ∨ cw.encoding = [] ∨
      cw.ResponseWriter.header.Get contentEncodingKey ≠ [] ∨ cw.isCompressable = false) :
    cw.WriteHeader code =
      { cw with wroteHeader := true, ResponseWriter := cw.ResponseWriter.WriteHeader code } := by
  obtain ⟨rw, w, written, cts, cws, enc, wh, comp⟩ := cw
  simp only at hc h
  subst hc
  unfold compressResponseWriter.WriteHeader
  cases wh with
  | true => simp
  | false =>
    simp only [Bool.false_eq_true, if_false]
    by_cases hce : rw.header.Get contentEncodingKey = []
    · rcases h with h | h | h | h
      · simp at h
      · subst h
        simp [hce]
      · exact absurd hce h
      · have h' : compressResponseWriter.isCompressable
            { ResponseWriter := rw, w := w, written := written, contentTypes := cts,
              contentWildcards := cws, encoding := enc, wroteHeader := true,
              compressable := false } = false := h
        simp [hce, h']
    · simp [hce]

theorem wrapped_passthrough (next : HandlerProg) :
    ∀ cw : compressResponseWriter, cw.compressable = false →
      (cw.wroteHeader = true ∨ commits next = false ∨ cw.encoding = [] ∨
        (declaredHeader next cw.ResponseWriter.header).Get contentEncodingKey ≠ [] ∨
        allowsContentType cw.contentTypes cw.contentWildcards
          ((declaredHeader next cw.ResponseWriter.header).Get contentTypeKey) = false) →
      (next.foldl (fun cw op => op.wrapped cw) cw).ResponseWriter =
          next.foldl (fun w op => op.direct w) cw.ResponseWriter ∧
        (next.foldl (fun cw op => op.wrapped cw) cw).compressable = false := by
  induction next with
  | nil => intro cw hc _; exact ⟨rfl, hc⟩
  | cons op rest ih =>
    intro cw hc h
    have hcommit : ∀ o : HandlerOp, (commits (o :: rest) = true) →
        (cw.wroteHeader = true ∨ commits (o :: rest) = false ∨ cw.encoding = [] ∨
          cw.ResponseWriter.header.Get contentEncodingKey ≠ [] ∨
          allowsContentType cw.contentTypes cw.contentWildcards
            (cw.ResponseWriter.header.Get contentTypeKey) = false) →
        (cw.wroteHeader = true ∨ cw.encoding = [] ∨
          cw.ResponseWriter.header.Get contentEncodingKey ≠ [] ∨
          cw.isCompressable = false) := by
      intro o ho h'
      rcases h' with h' | h' | h' | h' | h'
      · exact Or.inl h'
      · rw [ho] at h'; exact absurd h' (by decide)
      · exact Or.inr (Or.inl h')
      · exact Or.inr (Or.inr (Or.inl h'))
      · exact Or.inr (Or.inr (Or.inr h'))
    simp only [List.foldl_cons]
    cases op with
    | headerSet k v => exact ih _ hc h
    | headerAdd k v => exact ih _ hc h
    | headerDel k => exact ih _ hc h
    | writeHeader code =>
      have e := WriteHeader_passthrough cw code.code hc (hcommit (.writeHeader code) rfl h)
      simp only [HandlerOp.wrapped, HandlerOp.direct, e]
      exact ih _ hc (Or.inl rfl)
    | write p =>
      simp only [HandlerOp.wrapped, HandlerOp.direct, compressResponseWriter.Write]
      cases hw : cw.wroteHeader with
      | true =>
        simp only [Bool.not_true, Bool.false_eq_true, if_false, hc]
        exact ih _ rfl (Or.inl hw)
      | false =>
        have e := WriteHeader_passthrough cw 200 hc (hcommit (.write p) rfl h)
        simp only [Bool.not_false, if_true, e, hc, Bool.false_eq_true, if_false,
          ResponseWriter.Write_WriteHeader]
        exact ih _ rfl (Or.inl rfl)

/-- The handler of the compressor leaves the response as the handler alone
would, when no encoding is selected, the handler writes nothing, the declared
header already has a `Content-Encoding`, or the declared content type is
refused by the gate. -/
theorem Handler_passthrough (c : Compressor) (next : HandlerProg) (r : Header)
    (w : ResponseWriter)
    (h : (c.selectEncoder r).2 = [] ∨ commits next = false ∨
      (declaredHeader next w.header).Get contentEncodingKey ≠ [] ∨
      allowsContentType c.allowedTypes c.allowedWildcards
        ((declaredHeader next w.header).Get contentTypeKey) = false) :
    c.Handler next r w = next.foldl (fun w op => op.direct w) w := by
  unfold Compressor.Handler
  obtain ⟨a, b⟩ := wrapped_passthrough next
    { ResponseWriter := w, w := (c.selectEncoder r).1, written := [],
      contentTypes := c.allowedTypes, contentWildcards := c.allowedWildcards,
      encoding := (c.selectEncoder r).2, wroteHeader := false, compressable := false }
    rfl (by
      rcases h with h | h | h | h
      · exact Or.inr (Or.inr (Or.inl h))
      · exact Or.inr (Or.inl h)
      · exact Or.inr (Or.inr (Or.inr (Or.inl h)))
      · exact Or.inr (Or.inr (Or.inr (Or.inr h))))
  simp only [compressResponseWriter.Close, b, Bool.false_eq_true, if_false]
  exact a

/-- Requests for which the middleware of `NewMiddleware` is transparent: the
response is the one the handler produces on its own. -/
theorem serve_passthrough (lib : Codecs) (next : HandlerProg) (r : Header)
    (h : preferred (Split (ToLower (r.Get acceptEncodingKey)) ',') = [] ∨
      commits next = false ∨
      (declaredHeader next Header.empty).Get contentEncodingKey ≠ [] ∨
      allowsContentType defaultCompressibleContentTypes []
        ((declaredHeader next Header.empty).Get contentTypeKey) = false) :
    serve lib next r = .ok (serveDirect next ResponseWriter.fresh) := by
  have hn := negotiate_eq lib r
  obtain ⟨c, hc, -, -, ht, hw, -, -, -⟩ := NewMiddleware_spec lib
  simp only [negotiate, hc, Except.map, Except.ok.injEq] at hn
  simp only [serve, hc, Except.map, Except.ok.injEq, serveDirect]
  rw [Handler_passthrough c next r ResponseWriter.fresh]
  rw [hn, ht, hw]
  exact h

/-! ## Compression -/

theorem WriteHeader_shape (cw : compressResponseWriter) (code : Nat) :
    (cw.WriteHeader code).wroteHeader = true ∧
      ∃ h', (cw.WriteHeader code).ResponseWriter =
        ResponseWriter.WriteHeader { cw.ResponseWriter with header := h' } code := by
  unfold compressResponseWriter.WriteHeader
  by_cases hw : cw.wroteHeader = true
  · rw [if_pos hw]
    exact ⟨hw, _, rfl⟩
  · rw [if_neg hw]
    dsimp only
    split
    · exact ⟨rfl, _, rfl⟩
    · split
      · exact ⟨rfl, _, rfl⟩
      · split
        · exact ⟨rfl, _, rfl⟩
        · exact ⟨rfl, _, rfl⟩

theorem WriteHeader_committed (cw : compressResponseWriter) (code : Nat)
    (h : cw.ResponseWriter.wroteHeader = true) :
    (cw.WriteHeader code).ResponseWriter.wroteHeader = true ∧
      (cw.WriteHeader code).ResponseWriter.sentHeader = cw.ResponseWriter.sentHeader := by
  obtain ⟨-, h', e⟩ := WriteHeader_shape cw code
  rw [e]
  simp [ResponseWriter.WriteHeader, h]

theorem Write_committed (cw : compressResponseWriter) (p : Bytes)
    (h : cw.ResponseWriter.wroteHeader = true) :
    (cw.Write p).ResponseWriter.wroteHeader = true ∧
      (cw.Write p).ResponseWriter.sentHeader = cw.ResponseWriter.sentHeader := by
  have key : ∀ cw' : compressResponseWriter, cw'.ResponseWriter.wroteHeader = true →
      cw'.ResponseWriter.sentHeader = cw.ResponseWriter.sentHeader →
      ∀ q : Bytes, (cw'.ResponseWriter.Write q).wroteHeader = true ∧
        (cw'.ResponseWriter.Write q).sentHeader = cw.ResponseWriter.sentHeader := by
    intro cw' h1 h2 q
    simp [ResponseWriter.Write, h1, h2]
  obtain ⟨a, b⟩ := WriteHeader_committed cw 200 h
  unfold compressResponseWriter.Write
  cases hw : cw.wroteHeader with
  | true =>
    simp only [Bool.not_true, Bool.false_eq_true, if_false]
    split
    · split
      · exact key cw h rfl _
      · exact key cw h rfl _
    · exact key cw h rfl _
  | false =>
    simp only [Bool.not_false, if_true]
    split
    · split
      · exact key _ a b _
      · exact key _ a b _
    · exact key _ a b _

theorem wrapped_committed (next : HandlerProg) :
    ∀ cw : compressResponseWriter, cw.ResponseWriter.wroteHeader = true →
      (next.foldl (fun cw op => op.wrapped cw) cw).Close.ResponseWriter.wroteHeader = true ∧
      (next.foldl (fun cw op => op.wrapped cw) cw).Close.ResponseWriter.sentHeader =
        cw.ResponseWriter.sentHeader := by
  induction next with
  | nil =>
    intro cw h
    simp only [List.foldl_nil, compressResponseWriter.Close]
    split
    · split
      · simp [ResponseWriter.Write, h]
      · exact ⟨h, rfl⟩
    · exact ⟨h, rfl⟩
  | cons op rest ih =>
    intro cw h
    simp only [List.foldl_cons]
    cases op with
    | headerSet k v => exact ih _ h
    | headerAdd k v => exact ih _ h
    | headerDel k => exact ih _ h
    | writeHeader code =>
      obtain ⟨a, b⟩ := WriteHeader_committed cw code.code h
      obtain ⟨c, d⟩ := ih (cw.WriteHeader code.code) a
      exact ⟨c, d.trans b⟩
    | write p =>
      obtain ⟨a, b⟩ := Write_committed cw p h
      obtain ⟨c, d⟩ := ih (cw.Write p) a
      exact ⟨c, d.trans b⟩

theorem WriteHeader_compress (cw : compressResponseWriter) (code : Nat)
    (hw : cw.wroteHeader = false) (hr : cw.ResponseWriter.wroteHeader = false)
    (hne : cw.encoding ≠ [])
    (hce : cw.ResponseWriter.header.Get contentEncodingKey = [])
    (hct : allowsContentType cw.contentTypes cw.contentWildcards
      (cw.ResponseWriter.header.Get contentTypeKey) = true) :
    (cw.WriteHeader code).ResponseWriter.wroteHeader = true ∧
      (cw.WriteHeader code).ResponseWriter.sentHeader =
        compressedHeader cw.ResponseWriter.header cw.encoding := by
  obtain ⟨rw, w, written, cts, cws, enc, wh, comp⟩ := cw
  simp only at hw hr hne hce hct
  subst hw
  simp [compressResponseWriter.WriteHeader, hce, compressResponseWriter.isCompressable, hct,
    hne, ResponseWriter.WriteHeader, hr, compressedHeader]

theorem wrapped_compress (next : HandlerProg) :
    ∀ cw : compressResponseWriter, cw.wroteHeader = false →
      cw.ResponseWriter.wroteHeader = false → cw.encoding ≠ [] → commits next = true →
      (declaredHeader next cw.ResponseWriter.header).Get contentEncodingKey = [] →
      allowsContentType cw.contentTypes cw.contentWildcards
        ((declaredHeader next cw.ResponseWriter.header).Get contentTypeKey) = true →
      (next.foldl (fun cw op => op.wrapped cw) cw).Close.ResponseWriter.wroteHeader = true ∧
      (next.foldl (fun cw op => op.wrapped cw) cw).Close.ResponseWriter.sentHeader =
        compressedHeader (declaredHeader next cw.ResponseWriter.header) cw.encoding := by
  induction next with
  | nil => intro cw _ _ _ hc; simp [commits] at hc
  | cons op rest ih =>
    intro cw hw hr hne hc hce hct
    simp only [List.foldl_cons]
    cases op with
    | headerSet k v => exact ih _ hw hr hne hc hce hct
    | headerAdd k v => exact ih _ hw hr hne hc hce hct
    | headerDel k => exact ih _ hw hr hne hc hce hct
    | writeHeader code =>
      obtain ⟨a, b⟩ := WriteHeader_compress cw code.code hw hr hne hce hct
      obtain ⟨c, d⟩ := wrapped_committed rest (cw.WriteHeader code.code) a
      exact ⟨c, d.trans b⟩
    | write p =>
      obtain ⟨a, b⟩ := WriteHeader_compress cw 200 hw hr hne hce hct
      have e : cw.Write p = (cw.WriteHeader 200).Write p := by
        have : (cw.WriteHeader 200).wroteHeader = true := (WriteHeader_shape cw 200).1
        simp [compressResponseWriter.Write, hw, this]
      obtain ⟨a', b'⟩ := Write_committed (cw.WriteHeader 200) p a
      obtain ⟨c, d⟩ := wrapped_committed rest (cw.Write p) (by rw [e]; exact a')
      refine ⟨c, d.trans ?_⟩
      rw [e]
      exact b'.trans b

/-- A request for which the middleware of `NewMiddleware` compresses: an
encoding is selected, the handler writes, and the header it declares has no
`Content-Encoding` and an allowed `Content-Type`.  The response header is the
declared one with the encoding set. -/
theorem serve_compress (lib : Codecs) (next : HandlerProg) (r : Header)
    (hne : preferred (Split (ToLower (r.Get acceptEncodingKey)) ',') ≠ [])
    (hc : commits next = true)
    (hce : (declaredHeader next Header.empty).Get contentEncodingKey = [])
    (hct : allowsContentType defaultCompressibleContentTypes []
      ((declaredHeader next Header.empty).Get contentTypeKey) = true) :
    ∃ resp, serve lib next r = .ok resp ∧
      resp.sentHeader = compressedHeader (declaredHeader next Header.empty)
        (preferred (Split (ToLower (r.Get acceptEncodingKey)) ',')) := by
  have hn := negotiate_eq lib r
  obtain ⟨c, hcm, -, -, ht, hw, -, -, -⟩ := NewMiddleware_spec lib
  simp only [negotiate, hcm, Except.map, Except.ok.injEq] at hn
  simp only [serve, hcm, Except.map, Except.ok.injEq, exists_eq_left']
  obtain ⟨a, b⟩ := wrapped_compress next
    { ResponseWriter := ResponseWriter.fresh, w := (c.selectEncoder r).1, written := [],
      contentTypes := c.allowedTypes, contentWildcards := c.allowedWildcards,
      encoding := (c.selectEncoder r).2, wroteHeader := false, compressable := false }
    rfl rfl (by rw [hn]; exact hne) hc hce (by rw [ht, hw]; exact hct)
  have e : c.Handler next r ResponseWriter.fresh =
      (List.foldl (fun (cw : compressResponseWriter) (op : HandlerOp) => op.wrapped cw)
        { ResponseWriter := ResponseWriter.fresh, w := (c.selectEncoder r).1, written := [],
          contentTypes := c.allowedTypes, contentWildcards := c.allowedWildcards,
          encoding := (c.selectEncoder r).2, wroteHeader := false, compressable := false }
        next).Close.ResponseWriter := rfl
  rw [e, ResponseWriter.finish, if_pos a, b]
  show compressedHeader (declaredHeader next Header.empty) (c.selectEncoder r).2 = _
  rw [hn]

theorem compressedHeader_contentEncoding (declared : Header) (encoding : GoString) :
    compressedHeader declared encoding contentEncodingKey = [encoding] := by
  have h1 : contentEncodingKey ≠ contentLengthKey := by decide
  have h2 : contentEncodingKey ≠ varyKey := by decide
  simp [compressedHeader, Header.Del, Header.Add, Header.Set, h1, h2,
    contentEncodingKey_canonical, contentLengthKey_canonical, varyKey_canonical]

/-! ## Strings -/

theorem Split_ne_nil (s : GoString) (sep : Char) : Split s sep ≠ [] := by
  induction s with
  | nil => simp [Split]
  | cons c cs ih =>
    unfold Split
    split
    · simp
    · split <;> simp

theorem Split_cons_sep (cs : GoString) (sep : Char) :
    Split (sep :: cs) sep = [] :: Split cs sep := by
  simp [Split]

theorem Split_cons_ne (c : Char) (cs : GoString) (sep : Char) (h : c ≠ sep)
    (t : GoString) (ts : List GoString) (e : Split cs sep = t :: ts) :
    Split (c :: cs) sep = (c :: t) :: ts := by
  simp [Split, h, e]

theorem Split_append_sep (a : GoString) (sep : Char) (h : sep ∉ a) (rest : GoString) :
    Split (a ++ sep :: rest) sep = a :: Split rest sep := by
  induction a with
  | nil => exact Split_cons_sep rest sep
  | cons c cs ih =>
    have hc : c ≠ sep := fun e => h (by simp [e])
    have hcs : sep ∉ cs := fun e => h (List.mem_cons_of_mem _ e)
    exact Split_cons_ne c _ sep hc cs _ (ih hcs)

theorem Split_no_sep (a : GoString) (sep : Char) (h : sep ∉ a) : Split a sep = [a] := by
  induction a with
  | nil => rfl
  | cons c cs ih =>
    have hc : c ≠ sep := fun e => h (by simp [e])
    have hcs : sep ∉ cs := fun e => h (List.mem_cons_of_mem _ e)
    exact Split_cons_ne c _ sep hc cs _ (ih hcs)

theorem Split_Join (sep : Char) :
    ∀ ts : List GoString, ts ≠ [] → (∀ t ∈ ts, sep ∉ t) → Split (Join ts sep) sep = ts := by
  intro ts
  induction ts with
  | nil => intro h; exact absurd rfl h
  | cons a rest ih =>
    intro _ h
    cases rest with
    | nil => exact Split_no_sep a sep (h a (List.mem_cons_self _ _))
    | cons b rest' =>
      have e := ih (by simp) (fun t ht => h t (List.mem_cons_of_mem _ ht))
      show Split (a ++ sep :: Join (b :: rest') sep) sep = _
      rw [Split_append_sep a sep (h a (List.mem_cons_self _ _)), e]

theorem ToLower_append (a b : GoString) : ToLower (a ++ b) = ToLower a ++ ToLower b := by
  simp [ToLower]

theorem ToLower_cons (c : Char) (a : GoString) : ToLower (c :: a) = c.toLower :: ToLower a := by
  simp [ToLower]

theorem ToLower_Join (sep : Char) (hsep : sep.toLower = sep) :
    ∀ ts : List GoString, (∀ t ∈ ts, ToLower t = t) → ToLower (Join ts sep) = Join ts sep := by
  intro ts
  induction ts with
  | nil => intro _; rfl
  | cons a rest ih =>
    intro h
    cases rest with
    | nil => exact h a (List.mem_cons_self _ _)
    | cons b rest' =>
      show ToLower (a ++ sep :: Join (b :: rest') sep) = a ++ sep :: Join (b :: rest') sep
      rw [ToLower_append, ToLower_cons, hsep, h a (List.mem_cons_self _ _),
        ih (fun t ht => h t (List.mem_cons_of_mem _ ht))]

theorem HasPrefix_nil (s : GoString) : HasPrefix s [] = true := by
  cases s <;> rfl

theorem HasPrefix_append (p : GoString) : ∀ s : GoString, HasPrefix (p ++ s) p = true := by
  induction p with
  | nil => intro s; exact HasPrefix_nil s
  | cons c cs ih => intro s; simp [HasPrefix, ih]

theorem HasPrefix_of_append (q : GoString) :
    ∀ (p s : GoString), HasPrefix s (p ++ q) = true → HasPrefix s p = true := by
  intro p
  induction p with
  | nil => intro s _; exact HasPrefix_nil s
  | cons c cs ih =>
    intro s h
    cases s with
    | nil => simp [HasPrefix] at h
    | cons d ds =>
      simp only [List.cons_append, HasPrefix, Bool.and_eq_true] at h ⊢
      exact ⟨h.1, ih ds h.2⟩

theorem Contains_of_append (p q : GoString) :
    ∀ s : GoString, Contains s (p ++ q) = true → Contains s p = true := by
  intro s
  induction s with
  | nil =>
    intro h
    cases p with
    | nil => rfl
    | cons c cs => simp [Contains] at h
  | cons d ds ih =>
    intro h
    simp only [Contains, Bool.or_eq_true] at h ⊢
    rcases h with h | h
    · exact Or.inl (HasPrefix_of_append q p _ h)
    · exact Or.inr (ih h)

theorem Contains_append_right (p : GoString) :
    ∀ a b : GoString, Contains b p = true → Contains (a ++ b) p = true := by
  intro a
  induction a with
  | nil => intro b h; exact h
  | cons c cs ih =>
    intro b h
    simp only [List.cons_append, Contains, Bool.or_eq_true]
    exact Or.inr (ih b h)

theorem Contains_mid (a p b : GoString) : Contains (a ++ (p ++ b)) p = true := by
  apply Contains_append_right
  cases p with
  | nil => cases b <;> simp [Contains, HasPrefix_nil]
  | cons c cs =>
    simp only [List.cons_append, Contains, Bool.or_eq_true]
    exact Or.inl (HasPrefix_append (c :: cs) b)

theorem HasPrefix_not_mem (c : Char) (p s : GoString) (h : c ∉ s) :
    HasPrefix s (c :: p) = false := by
  cases s with
  | nil => rfl
  | cons d ds =>
    have : d ≠ c := fun e => h (by simp [e])
    simp [HasPrefix, this]

theorem Contains_not_mem (c : Char) (p : GoString) :
    ∀ s : GoString, c ∉ s → Contains s (c :: p) = false := by
  intro s
  induction s with
  | nil => intro _; rfl
  | cons d ds ih =>
    intro h
    have hds : c ∉ ds := fun e => h (List.mem_cons_of_mem _ e)
    simp only [Contains, Bool.or_eq_false_iff]
    exact ⟨HasPrefix_not_mem c p _ h, ih hds⟩

theorem matchAcceptEncoding_eq_any (encoding : GoString) :
    ∀ accepted : List GoString,
      matchAcceptEncoding accepted encoding = accepted.any (fun v => Contains v encoding) := by
  intro accepted
  induction accepted with
  | nil => rfl
  | cons v rest ih =>
    simp only [matchAcceptEncoding, List.any_cons, ih]
    cases Contains v encoding <;> simp

theorem HasPrefix_first_token (sep : Char) :
    ∀ (s t : GoString) (ts : List GoString), Split s sep = t :: ts →
      ∀ n : GoString, sep ∉ n → HasPrefix t n = HasPrefix s n := by
  intro s
  induction s with
  | nil =>
    intro t ts e n _
    simp only [Split, List.cons.injEq] at e
    rw [← e.1]
  | cons c cs ih =>
    intro t ts e n hn
    cases n with
    | nil => rw [HasPrefix_nil, HasPrefix_nil]
    | cons x n' =>
      have hx : x ≠ sep := fun h => hn (by simp [h])
      have hn' : sep ∉ n' := fun h => hn (List.mem_cons_of_mem _ h)
      by_cases hc : c = sep
      · subst hc
        rw [Split_cons_sep] at e
        simp only [List.cons.injEq] at e
        rw [← e.1]
        have : c ≠ x := fun h => hx h.symm
        simp [HasPrefix, this]
      · obtain ⟨t', ts', e'⟩ := List.exists_cons_of_ne_nil (Split_ne_nil cs sep)
        rw [Split_cons_ne c cs sep hc t' ts' e'] at e
        simp only [List.cons.injEq] at e
        rw [← e.1]
        simp only [HasPrefix]
        rw [ih t' ts' e' n' hn']

/-- A name without a comma is matched by some token of the header exactly when
the whole header contains it. -/
theorem matchAcceptEncoding_Split (n : GoString) (hne : n ≠ []) (hn : ',' ∉ n) :
    ∀ s : GoString, matchAcceptEncoding (Split s ',') n = Contains s n := by
  intro s
  induction s with
  | nil =>
    cases n with
    | nil => exact absurd rfl hne
    | cons x n' => rfl
  | cons c cs ih =>
    cases n with
    | nil => exact absurd rfl hne
    | cons x n' =>
      have hx : x ≠ ',' := fun h => hn (by simp [h])
      by_cases hc : c = ','
      · subst hc
        rw [Split_cons_sep]
        have hxc : ',' ≠ x := fun h => hx h.symm
        simp only [matchAcceptEncoding, Contains, HasPrefix, ih]
        simp [hxc]
      · obtain ⟨t', ts', e'⟩ := List.exists_cons_of_ne_nil (Split_ne_nil cs ',')
        rw [Split_cons_ne c cs ',' hc t' ts' e']
        rw [e'] at ih
        have hp := HasPrefix_first_token ',' (c :: cs) (c :: t') ts'
          (Split_cons_ne c cs ',' hc t' ts' e') (x :: n') hn
        simp only [matchAcceptEncoding, Contains] at ih ⊢
        simp only [hp]
        rw [← ih]
        cases HasPrefix (c :: cs) (x :: n') <;> cases Contains t' (x :: n') <;> simp

/-! ## Preference among the registered names -/

theorem acceptEncoding_Get (value : GoString) :
    (acceptEncoding value).Get acceptEncodingKey = value := by
  simp [acceptEncoding, Header.Set, Header.Get]

theorem preferred_none (accepted : List GoString)
    (h : ∀ n ∈ registrationOrder, matchAcceptEncoding accepted n = false) :
    preferred accepted = [] := by
  have hb := h brName (by decide)
  have hg := h gzipName (by decide)
  have hd := h deflateName (by decide)
  simp [preferred, hb, hg, hd]

theorem preferred_some (accepted : List GoString) (n : GoString)
    (hn : n ∈ registrationOrder) (hacc : matchAcceptEncoding accepted n = true) :
    preferred accepted ∈ registrationOrder ∧
      matchAcceptEncoding accepted (preferred accepted) = true ∧
      ∀ m ∈ registrationOrder, matchAcceptEncoding accepted m = true →
        registrationOrder.indexOf m ≤ registrationOrder.indexOf (preferred accepted) := by
  have hcases : n = deflateName ∨ n = gzipName ∨ n = brName := by
    simpa [registrationOrder] using hn
  have hall : ∀ P : GoString → Prop, P deflateName → P gzipName → P brName →
      ∀ m ∈ registrationOrder, P m := by
    intro P h1 h2 h3 m hm
    have : m = deflateName ∨ m = gzipName ∨ m = brName := by
      simpa [registrationOrder] using hm
    rcases this with rfl | rfl | rfl <;> assumption
  cases hb : matchAcceptEncoding accepted brName with
  | true =>
    have e : preferred accepted = brName := by simp [preferred, hb]
    rw [e]
    refine ⟨by decide, hb, hall _ ?_ ?_ ?_⟩ <;> intro _ <;> decide
  | false =>
    cases hg : matchAcceptEncoding accepted gzipName with
    | true =>
      have e : preferred accepted = gzipName := by simp [preferred, hb, hg]
      rw [e]
      refine ⟨by decide, hg, hall _ ?_ ?_ ?_⟩
      · intro _; decide
      · intro _; decide
      · intro h; rw [hb] at h; exact absurd h (by decide)
    | false =>
      cases hd : matchAcceptEncoding accepted deflateName with
      | true =>
        have e : preferred accepted = deflateName := by simp [preferred, hb, hg, hd]
        rw [e]
        refine ⟨by decide, hd, hall _ ?_ ?_ ?_⟩
        · intro _; decide
        · intro h; rw [hg] at h; exact absurd h (by decide)
        · intro h; rw [hb] at h; exact absurd h (by decide)
      | false =>
        rcases hcases with rfl | rfl | rfl
        · rw [hd] at hacc; exact absurd hacc (by decide)
        · rw [hg] at hacc; exact absurd hacc (by decide)
        · rw [hb] at hacc; exact absurd hacc (by decide)

theorem preferred_ne_nil (accepted : List GoString) (n : GoString)
    (hn : n ∈ registrationOrder) (hacc : matchAcceptEncoding accepted n = true) :
    preferred accepted ≠ [] := by
  obtain ⟨h, -, -⟩ := preferred_some accepted n hn hacc
  intro e
  rw [e] at h
  exact absurd h (by decide)

/-- Among tokens that are registered names, a name is matched exactly when it
is listed. -/
theorem matchAcceptEncoding_names (n : GoString) (hn : n ∈ registrationOrder) :
    ∀ ts : List GoString, (∀ t ∈ ts, t ∈ registrationOrder) →
      (matchAcceptEncoding ts n = true ↔ n ∈ ts) := by
  have hc : ∀ t ∈ registrationOrder, ∀ m ∈ registrationOrder,
      (Contains t m = true ↔ m = t) := by decide
  intro ts
  induction ts with
  | nil => intro _; simp [matchAcceptEncoding]
  | cons t rest ih =>
    intro h
    have ht := h t (List.mem_cons_self _ _)
    have ih' := ih (fun u hu => h u (List.mem_cons_of_mem _ hu))
    simp only [matchAcceptEncoding, List.mem_cons]
    by_cases e : Contains t n = true
    · simp only [e, if_true, true_iff]
      exact Or.inl ((hc t ht n hn).1 e)
    · simp only [e, Bool.false_eq_true, if_false, ih']
      constructor
      · exact Or.inr
      · rintro (h1 | h1)
        · exact absurd ((hc t ht n hn).2 h1) e
        · exact h1

/-! ## The handler of the test -/

theorem serve_jsonHandler_compressed (lib : Codecs) (r : Header) (body : Bytes)
    (hne : preferred (Split (ToLower (r.Get acceptEncodingKey)) ',') ≠ []) :
    serve lib (jsonHandler body) r = .ok
      { header := compressedHeader (Header.empty.Add contentTypeKey "application/json".toList)
          (preferred (Split (ToLower (r.Get acceptEncodingKey)) ','))
        wroteHeader := true
        status := 200
        sentHeader := compressedHeader (Header.empty.Add contentTypeKey "application/json".toList)
          (preferred (Split (ToLower (r.Get acceptEncodingKey)) ','))
        body :=
          match encoderOf lib (preferred (Split (ToLower (r.Get acceptEncodingKey)) ',')) with
          | some e => e.write [] body ++ e.close [body]
          | none => body } := by
  obtain ⟨c, hc, hs⟩ := selectEncoder_eq lib r
  obtain ⟨c', hc', -, -, ht, hw, -, -, -⟩ := NewMiddleware_spec lib
  have hcc : c' = c := by
    rw [hc] at hc'
    exact (Except.ok.inj hc').symm
  subst hcc
  have h1 : (Header.empty.Add contentTypeKey "application/json".toList).Get contentEncodingKey
      = [] := by decide
  have h2 : allowsContentType defaultCompressibleContentTypes []
      ((Header.empty.Add contentTypeKey "application/json".toList).Get contentTypeKey) = true := by
    decide
  simp only [serve, hc, Except.map, Compressor.Handler, hs, jsonHandler, List.foldl_cons,
    List.foldl_nil, HandlerOp.wrapped, HandlerOp.onHeader, ResponseWriter.fresh,
    compressResponseWriter.Write, compressResponseWriter.WriteHeader,
    compressResponseWriter.isCompressable, Bool.not_false, if_true, ht, hw, h1, h2, hne,
    ne_eq, not_true_eq_false, not_false_eq_true, if_false, Bool.not_true, Bool.false_eq_true,
    ResponseWriter.WriteHeader, compressResponseWriter.Close]
  cases encoderOf lib (preferred (Split (ToLower (r.Get acceptEncodingKey)) ',')) with
  | none =>
    simp [ResponseWriter.Write, ResponseWriter.finish, compressedHeader]
  | some e =>
    simp [ResponseWriter.Write, ResponseWriter.finish, compressedHeader]

/-! ## Handlers the compressor leaves alone -/

theorem serve_preEncoded (lib : Codecs) (r : Header) (encoding : GoString) (body : Bytes)
    (hne : encoding ≠ []) :
    ∃ resp, serve lib (preEncodedHandler encoding body) r = .ok resp ∧
      resp.status = 200 ∧ resp.sentHeader contentEncodingKey = [encoding] ∧
      resp.sentHeader varyKey = [] ∧ resp.body = body := by
  have hd : declaredHeader (preEncodedHandler encoding body) Header.empty =
      (Header.empty.Set contentTypeKey "application/json".toList).Set contentEncodingKey
        encoding := rfl
  have hce : ((Header.empty.Set contentTypeKey "application/json".toList).Set
      contentEncodingKey encoding) contentEncodingKey = [encoding] := by
    simp [Header.Set, contentEncodingKey_canonical]
  have hv : ((Header.empty.Set contentTypeKey "application/json".toList).Set
      contentEncodingKey encoding) varyKey = [] := by
    have h1 : varyKey ≠ contentEncodingKey := by decide
    have h2 : varyKey ≠ contentTypeKey := by decide
    simp [Header.Set, contentEncodingKey_canonical, contentTypeKey_canonical, h1, h2,
      Header.empty]
  refine ⟨_, serve_passthrough lib _ r (Or.inr (Or.inr (Or.inl ?_))), rfl, ?_, ?_, ?_⟩
  · rw [hd]
    simp only [Header.Get, contentEncodingKey_canonical, hce, List.headD_cons]
    exact hne
  · rw [serveDirect_sentHeader _ ResponseWriter.fresh rfl]
    exact hce
  · rw [serveDirect_sentHeader _ ResponseWriter.fresh rfl]
    exact hv
  · rw [serveDirect_body]
    simp [ResponseWriter.fresh, preEncodedHandler, writtenBytes]

theorem serve_silent (lib : Codecs) (r : Header) :
    ∃ resp, serve lib silentHandler r = .ok resp ∧
      resp.status = 200 ∧ resp.sentHeader contentEncodingKey = [] ∧ resp.body = [] :=
  ⟨_, serve_passthrough lib silentHandler r (Or.inr (Or.inl rfl)), rfl, rfl, rfl⟩

/-! ## Negotiation over listed names -/

/-- C1 (as stated, refuted): `application/json` is an allowed content type and
the header is `br,gzip`, yet a handler that has set `Content-Encoding:
identity` itself keeps that header and its body, and a handler that returns
without writing gets no `Content-Encoding` at all; in neither response is the
`Content-Encoding` `br`. -/
theorem listed_names_not_always_applied :
    allowsContentType defaultCompressibleContentTypes [] "application/json".toList = true ∧
      (∀ lib : Codecs, ∃ resp,
        serve lib (preEncodedHandler "identity".toList testStr)
            (acceptEncoding "br,gzip".toList) = .ok resp ∧
          resp.sentHeader contentEncodingKey = ["identity".toList] ∧ resp.body = testStr) ∧
      (∀ lib : Codecs, ∃ resp,
        serve lib silentHandler (acceptEncoding "br,gzip".toList) = .ok resp ∧
          resp.sentHeader contentEncodingKey = []) ∧
      ["identity".toList] ≠ [brName] ∧ ([] : List GoString) ≠ [brName] := by
  refine ⟨by decide, fun lib => ?_, fun lib => ?_, by decide, by decide⟩
  · obtain ⟨resp, h, -, hce, -, hb⟩ := serve_preEncoded lib (acceptEncoding "br,gzip".toList)
      "identity".toList testStr (by decide)
    exact ⟨resp, h, hce, hb⟩
  · obtain ⟨resp, h, -, hce, -⟩ := serve_silent lib (acceptEncoding "br,gzip".toList)
    exact ⟨resp, h, hce⟩

/-- C1 (amended): for an `Accept-Encoding` header that lists two or more of
`br`, `gzip`, `deflate` without q-values, in any order, and a handler that
writes a status line or body and whose declared header has an allowed content
type and no `Content-Encoding` of its own, the middleware of `NewMiddleware`
selects `br` if it is listed and `gzip` otherwise, and the response carries
exactly that `Content-Encoding`. -/
theorem listed_names_select_br_then_gzip (lib : Codecs) (next : HandlerProg)
    (ts : List GoString) (hts : ∀ t ∈ ts, t ∈ registrationOrder)
    (htwo : ∃ a ∈ ts, ∃ b ∈ ts, a ≠ b) (hc : commits next = true)
    (hce : (declaredHeader next Header.empty).Get contentEncodingKey = [])
    (hct : allowsContentType defaultCompressibleContentTypes []
      ((declaredHeader next Header.empty).Get contentTypeKey) = true) :
    negotiate lib (acceptEncoding (Join ts ',')) =
        .ok (if brName ∈ ts then brName else gzipName) ∧
      ∃ resp, serve lib next (acceptEncoding (Join ts ',')) = .ok resp ∧
        resp.sentHeader contentEncodingKey = [if brName ∈ ts then brName else gzipName] := by
  have hne : ts ≠ [] := by
    obtain ⟨a, ha, -⟩ := htwo
    exact List.ne_nil_of_mem ha
  have hcomma : ∀ t ∈ ts, ',' ∉ t := by
    have : ∀ t ∈ registrationOrder, ',' ∉ t := by decide
    exact fun t ht => this t (hts t ht)
  have hlow : ∀ t ∈ ts, ToLower t = t := by
    have : ∀ t ∈ registrationOrder, ToLower t = t := by decide
    exact fun t ht => this t (hts t ht)
  have hsplit : Split (ToLower ((acceptEncoding (Join ts ',')).Get acceptEncodingKey)) ',' = ts := by
    rw [acceptEncoding_Get, ToLower_Join ',' (by decide) ts hlow, Split_Join ',' ts hne hcomma]
  have hb := matchAcceptEncoding_names brName (by decide) ts hts
  have hg := matchAcceptEncoding_names gzipName (by decide) ts hts
  have hpref : preferred ts = if brName ∈ ts then brName else gzipName := by
    by_cases h : brName ∈ ts
    · simp [preferred, hb.2 h, h]
    · have hb' : matchAcceptEncoding ts brName = false := by
        cases e : matchAcceptEncoding ts brName with
        | true => exact absurd (hb.1 e) h
        | false => rfl
      have hgz : gzipName ∈ ts := by
        obtain ⟨a, ha, b, hb2, hab⟩ := htwo
        have ha' : a = deflateName ∨ a = gzipName ∨ a = brName := by
          simpa [registrationOrder] using hts a ha
        have hb3 : b = deflateName ∨ b = gzipName ∨ b = brName := by
          simpa [registrationOrder] using hts b hb2
        rcases ha' with rfl | rfl | rfl
        · rcases hb3 with rfl | rfl | rfl
          · exact absurd rfl hab
          · exact hb2
          · exact absurd hb2 h
        · exact ha
        · exact absurd ha h
      simp [preferred, hb', hg.2 hgz, h]
  have hnil : preferred ts ≠ [] := by
    rw [hpref]
    split <;> decide
  refine ⟨?_, ?_⟩
  · rw [negotiate_eq, hsplit, hpref]
  · obtain ⟨resp, h1, h2⟩ := serve_compress lib next (acceptEncoding (Join ts ','))
      (by rw [hsplit]; exact hnil) hc hce hct
    refine ⟨resp, h1, ?_⟩
    rw [h2, compressedHeader_contentEncoding, hsplit, hpref]

/-- C1 (amended) at a case of `TestMiddleware`: the test's handler with
`gzip,deflate`, which selects `gzip`. -/
theorem listed_names_select_br_then_gzip_witness :
    negotiate sampleCodecs (acceptEncoding (Join [gzipName, deflateName] ',')) =
        .ok (if brName ∈ [gzipName, deflateName] then brName else gzipName) ∧
      ∃ resp, serve sampleCodecs (jsonHandler testStr)
          (acceptEncoding (Join [gzipName, deflateName] ',')) = .ok resp ∧
        resp.sentHeader contentEncodingKey =
          [if brName ∈ [gzipName, deflateName] then brName else gzipName] :=
  listed_names_select_br_then_gzip sampleCodecs (jsonHandler testStr) [gzipName, deflateName]
    (by decide) ⟨gzipName, by decide, deflateName, by decide, by decide⟩ (by decide)
    (by decide) (by decide)

/-- C2 (as stated, refuted): `application/json` is an allowed content type and
the `Accept-Encoding` header is exactly `gzip`, yet a handler that has set
`Content-Encoding: identity` itself keeps that header and its body, and a
handler that returns without writing gets no `Content-Encoding` at all; in
neither response is the `Content-Encoding` `gzip`. -/
theorem single_name_not_always_applied :
    allowsContentType defaultCompressibleContentTypes [] "application/json".toList = true ∧
      (∀ lib : Codecs, ∃ resp,
        serve lib (preEncodedHandler "identity".toList testStr) (acceptEncoding gzipName) =
            .ok resp ∧
          resp.sentHeader contentEncodingKey = ["identity".toList] ∧ resp.body = testStr) ∧
      (∀ lib : Codecs, ∃ resp,
        serve lib silentHandler (acceptEncoding gzipName) = .ok resp ∧
          resp.sentHeader contentEncodingKey = []) ∧
      ["identity".toList] ≠ [gzipName] ∧ ([] : List GoString) ≠ [gzipName] := by
  refine ⟨by decide, fun lib => ?_, fun lib => ?_, by decide, by decide⟩
  · obtain ⟨resp, h, -, hce, -, hb⟩ := serve_preEncoded lib (acceptEncoding gzipName)
      "identity".toList testStr (by decide)
    exact ⟨resp, h, hce, hb⟩
  · obtain ⟨resp, h, -, hce, -⟩ := serve_silent lib (acceptEncoding gzipName)
    exact ⟨resp, h, hce⟩

/-- C2 (amended): for each name `n` of `br`, `gzip`, `deflate`, a request whose
`Accept-Encoding` is exactly `n`, served by a handler that writes a status
line or body and whose declared header has an allowed content type and no
`Content-Encoding` of its own, gets a response whose `Content-Encoding` is
exactly `n`. -/
theorem single_name_selected (lib : Codecs) (next : HandlerProg) (n : GoString)
    (hn : n ∈ registrationOrder) (hc : commits next = true)
    (hce : (declaredHeader next Header.empty).Get contentEncodingKey = [])
    (hct : allowsContentType defaultCompressibleContentTypes []
      ((declaredHeader next Header.empty).Get contentTypeKey) = true) :
    negotiate lib (acceptEncoding n) = .ok n ∧
      ∃ resp, serve lib next (acceptEncoding n) = .ok resp ∧
        resp.sentHeader contentEncodingKey = [n] := by
  have hpref : preferred (Split (ToLower ((acceptEncoding n).Get acceptEncodingKey)) ',') = n := by
    rw [acceptEncoding_Get]
    have : ∀ m ∈ registrationOrder, preferred (Split (ToLower m) ',') = m := by decide
    exact this n hn
  have hnil : n ≠ [] := by
    have : ∀ m ∈ registrationOrder, m ≠ [] := by decide
    exact this n hn
  refine ⟨?_, ?_⟩
  · rw [negotiate_eq, hpref]
  · obtain ⟨resp, h1, h2⟩ := serve_compress lib next (acceptEncoding n)
      (by rw [hpref]; exact hnil) hc hce hct
    refine ⟨resp, h1, ?_⟩
    rw [h2, compressedHeader_contentEncoding, hpref]

/-- C2 (amended) at the handler of `TestMiddleware` and `Accept-Encoding:
deflate`. -/
theorem single_name_selected_witness :
    negotiate sampleCodecs (acceptEncoding deflateName) = .ok deflateName ∧
      ∃ resp, serve sampleCodecs (jsonHandler testStr) (acceptEncoding deflateName) = .ok resp ∧
        resp.sentHeader contentEncodingKey = [deflateName] :=
  single_name_selected sampleCodecs (jsonHandler testStr) deflateName
    (by decide) (by decide) (by decide) (by decide)

/-! ## Identity -/

/-- C3: when the request has no `Accept-Encoding` header, or an empty one
(`Get` returns `""` in both cases), the negotiation result is identity and the
response is the one the handler produces on its own: the header is the
handler's declared header, so it carries no `Content-Encoding` unless the
handler itself names that key (in any spelling with the same canonical form),
and the body is exactly the bytes written. -/
theorem absent_accept_encoding_is_identity (lib : Codecs) (next : HandlerProg) (r : Header)
    (h : r.Get acceptEncodingKey = []) :
    negotiate lib r = .ok [] ∧
      ∃ resp, serve lib next r = .ok resp ∧
        resp = serveDirect next ResponseWriter.fresh ∧
        resp.sentHeader = declaredHeader next Header.empty ∧
        resp.body = writtenBytes next ∧
        ((∀ op ∈ next, op.touches contentEncodingKey = false) →
          resp.sentHeader contentEncodingKey = []) := by
  have hp : preferred (Split (ToLower (r.Get acceptEncodingKey)) ',') = [] := by
    rw [h]; decide
  refine ⟨by rw [negotiate_eq, hp], _, serve_passthrough lib next r (Or.inl hp), rfl, ?_, ?_, ?_⟩
  · exact serveDirect_sentHeader next ResponseWriter.fresh rfl
  · rw [serveDirect_body]; rfl
  · intro hu
    rw [serveDirect_sentHeader next ResponseWriter.fresh rfl]
    exact declaredHeader_no_contentEncoding next hu

/-- C3 at the first case of `TestMiddleware`: no `Accept-Encoding` header, the
test's handler. -/
theorem absent_accept_encoding_is_identity_witness :
    negotiate sampleCodecs Header.empty = .ok [] ∧
      ∃ resp, serve sampleCodecs (jsonHandler testStr) Header.empty = .ok resp ∧
        resp = serveDirect (jsonHandler testStr) ResponseWriter.fresh ∧
        resp.sentHeader = declaredHeader (jsonHandler testStr) Header.empty ∧
        resp.body = writtenBytes (jsonHandler testStr) ∧
        ((∀ op ∈ jsonHandler testStr, op.touches contentEncodingKey = false) →
          resp.sentHeader contentEncodingKey = []) :=
  absent_accept_encoding_is_identity sampleCodecs (jsonHandler testStr) Header.empty rfl

/-- C8: the compressor of `NewMiddleware` uses chi's default content types; for
every handler whose declared `Content-Type` the gate refuses and every request
header, the response is the one the handler produces on its own: the
middleware sets no `Content-Encoding` and the body is exactly the bytes
written. -/
theorem refused_content_type_not_compressed (lib : Codecs) (next : HandlerProg) (r : Header)
    (h : allowsContentType defaultCompressibleContentTypes []
      ((declaredHeader next Header.empty).Get contentTypeKey) = false) :
    ∃ resp, serve lib next r = .ok resp ∧
      resp = serveDirect next ResponseWriter.fresh ∧
      resp.sentHeader = declaredHeader next Header.empty ∧
      resp.body = writtenBytes next ∧
      ((∀ op ∈ next, op.touches contentEncodingKey = false) →
        resp.sentHeader contentEncodingKey = []) := by
  refine ⟨_, serve_passthrough lib next r (Or.inr (Or.inr (Or.inr h))), rfl, ?_, ?_, ?_⟩
  · exact serveDirect_sentHeader next ResponseWriter.fresh rfl
  · rw [serveDirect_body]; rfl
  · intro hu
    rw [serveDirect_sentHeader next ResponseWriter.fresh rfl]
    exact declaredHeader_no_contentEncoding next hu

/-- C8 at a handler that declares `image/png` and writes the test body, for a
request accepting `gzip`. -/
theorem refused_content_type_not_compressed_witness :
    ∃ resp, serve sampleCodecs
        [.headerSet contentTypeKey "image/png".toList, .write testStr]
        (acceptEncoding gzipName) = .ok resp ∧
      resp = serveDirect [.headerSet contentTypeKey "image/png".toList, .write testStr]
        ResponseWriter.fresh ∧
      resp.sentHeader = declaredHeader
        [.headerSet contentTypeKey "image/png".toList, .write testStr] Header.empty ∧
      resp.body = writtenBytes [.headerSet contentTypeKey "image/png".toList, .write testStr] ∧
      ((∀ op ∈ ([.headerSet contentTypeKey "image/png".toList, .write testStr] : HandlerProg),
          op.touches contentEncodingKey = false) →
        resp.sentHeader contentEncodingKey = []) :=
  refused_content_type_not_compressed sampleCodecs
    [.headerSet contentTypeKey "image/png".toList, .write testStr] (acceptEncoding gzipName)
    (by decide)

/-! ## Precedence and q-values -/

theorem jsonHandler_declares (body : Bytes) :
    commits (jsonHandler body) = true ∧
      (declaredHeader (jsonHandler body) Header.empty).Get contentEncodingKey = [] ∧
      allowsContentType defaultCompressibleContentTypes []
        ((declaredHeader (jsonHandler body) Header.empty).Get contentTypeKey) = true := by
  have e : declaredHeader (jsonHandler body) Header.empty =
      Header.empty.Add contentTypeKey "application/json".toList := rfl
  rw [e]
  exact ⟨rfl, by decide, by decide⟩

theorem matchAcceptEncoding_of_token (accepted : List GoString) (n t : GoString)
    (ht : t ∈ accepted) (h : Contains t n = true) : matchAcceptEncoding accepted n = true := by
  rw [matchAcceptEncoding_eq_any]
  exact List.any_eq_true.2 ⟨t, ht, h⟩

theorem matchAcceptEncoding_false (accepted : List GoString) (n : GoString) :
    matchAcceptEncoding accepted n = false ↔ ∀ t ∈ accepted, Contains t n = false := by
  rw [matchAcceptEncoding_eq_any]
  simp [List.any_eq_false]

theorem isQValue_ToLower (q : GoString) (h : isQValue q = true) : ToLower q = q := by
  have key : ∀ c : Char, (c.isDigit || c == '.') = true → c.toLower = c := by
    intro c h
    simp only [Bool.or_eq_true, beq_iff_eq] at h
    rcases h with h | h
    · simp only [Char.isDigit, Bool.and_eq_true, decide_eq_true_eq] at h
      have a : c.val.toNat ≤ 57 := h.2
      have a' : c.toNat ≤ 57 := a
      have : ¬ (c.toNat ≥ 65 ∧ c.toNat ≤ 90) := by
        rintro ⟨h3, -⟩
        omega
      unfold Char.toLower
      simp only [this, if_false]
    · subst h; decide
  unfold isQValue at h
  rw [List.all_eq_true] at h
  unfold ToLower
  conv_rhs => rw [← List.map_id q]
  exact List.map_congr_left (fun c hc => key c (h c hc))

theorem isQValue_not_mem (q : GoString) (h : isQValue q = true) (d : Char)
    (hd : (d.isDigit || d == '.') = false) : d ∉ q := by
  intro hm
  unfold isQValue at h
  rw [List.all_eq_true] at h
  have := h d hm
  rw [hd] at this
  exact absurd this (by decide)

/-- C4 (as stated, refuted): `NewMiddleware` registers `deflate` before `gzip`,
both are acceptable in `gzip,deflate` (no q-values), and `gzip`, the later
registration, is selected. -/
theorem earliest_registered_not_selected :
    registrationOrder.indexOf deflateName < registrationOrder.indexOf gzipName ∧
      matchAcceptEncoding (Split (ToLower "gzip,deflate".toList) ',') deflateName = true ∧
      matchAcceptEncoding (Split (ToLower "gzip,deflate".toList) ',') gzipName = true ∧
      (∀ lib : Codecs, negotiate lib (acceptEncoding "gzip,deflate".toList) = .ok gzipName) ∧
      negotiate sampleCodecs (acceptEncoding "gzip,deflate".toList) ≠ .ok deflateName := by
  refine ⟨by decide, by decide, by decide, fun lib => ?_, ?_⟩
  · rw [negotiate_eq, acceptEncoding_Get]
    exact congrArg Except.ok (by decide)
  · rw [negotiate_eq, acceptEncoding_Get, ne_eq, Except.ok.injEq]
    decide

/-- C4 (amended): the precedence list of the compressor of `NewMiddleware` is
the registration order reversed, and for every (ASCII) header in which some
registered encoding is acceptable (a comma-separated token of the lowered
header contains its name) the selected encoding is the acceptable one that was
registered latest. -/
theorem latest_registered_selected (lib : Codecs) (value n : GoString)
    (_hascii : isASCII value = true) (hn : n ∈ registrationOrder)
    (hacc : matchAcceptEncoding (Split (ToLower value) ',') n = true) :
    (∃ c, NewMiddleware lib = .ok c ∧ c.encodingPrecedence = registrationOrder.reverse) ∧
      ∃ sel, negotiate lib (acceptEncoding value) = .ok sel ∧ sel ∈ registrationOrder ∧
        matchAcceptEncoding (Split (ToLower value) ',') sel = true ∧
        ∀ m ∈ registrationOrder, matchAcceptEncoding (Split (ToLower value) ',') m = true →
          registrationOrder.indexOf m ≤ registrationOrder.indexOf sel := by
  refine ⟨?_, ?_⟩
  · obtain ⟨c, hc, hp, -, -, -, -, -, -⟩ := NewMiddleware_spec lib
    exact ⟨c, hc, hp.trans (by decide)⟩
  · obtain ⟨h1, h2, h3⟩ := preferred_some _ n hn hacc
    refine ⟨_, ?_, h1, h2, h3⟩
    rw [negotiate_eq, acceptEncoding_Get]

/-- C4 (amended) at `gzip,deflate`, where `deflate` is acceptable. -/
theorem latest_registered_selected_witness :
    (∃ c, NewMiddleware sampleCodecs = .ok c ∧
        c.encodingPrecedence = registrationOrder.reverse) ∧
      ∃ sel, negotiate sampleCodecs (acceptEncoding "gzip,deflate".toList) = .ok sel ∧
        sel ∈ registrationOrder ∧
        matchAcceptEncoding (Split (ToLower "gzip,deflate".toList) ',') sel = true ∧
        ∀ m ∈ registrationOrder,
          matchAcceptEncoding (Split (ToLower "gzip,deflate".toList) ',') m = true →
            registrationOrder.indexOf m ≤ registrationOrder.indexOf sel :=
  latest_registered_selected sampleCodecs "gzip,deflate".toList deflateName
    (by decide) (by decide) (by decide)

/-- C5 (as stated, refuted): for `Accept-Encoding: gzip;q=0` the middleware of
`NewMiddleware` selects `gzip`, and the response of the test's handler carries
`Content-Encoding: gzip`. -/
theorem zero_q_token_selected :
    (∀ lib : Codecs, negotiate lib (acceptEncoding "gzip;q=0".toList) = .ok gzipName) ∧
      (∀ (lib : Codecs) (body : Bytes),
        ∃ resp, serve lib (jsonHandler body) (acceptEncoding "gzip;q=0".toList) = .ok resp ∧
          resp.sentHeader contentEncodingKey = [gzipName]) ∧
      negotiate sampleCodecs (acceptEncoding "gzip;q=0".toList) ≠ .ok [] := by
  have hp : preferred (Split (ToLower ((acceptEncoding "gzip;q=0".toList).Get
      acceptEncodingKey)) ',') = gzipName := by
    rw [acceptEncoding_Get]; decide
  refine ⟨fun lib => ?_, fun lib body => ?_, ?_⟩
  · rw [negotiate_eq, hp]
  · obtain ⟨h1, h2, h3⟩ := jsonHandler_declares body
    obtain ⟨resp, e1, e2⟩ := serve_compress lib (jsonHandler body)
      (acceptEncoding "gzip;q=0".toList) (by rw [hp]; decide) h1 h2 h3
    refine ⟨resp, e1, ?_⟩
    rw [e2, compressedHeader_contentEncoding, hp]
  · rw [negotiate_eq, hp, ne_eq, Except.ok.injEq]
    decide

/-- C5 (amended): q-values are not read.  In every (ASCII) header a token that
contains `n;q=0` for a registered name `n` makes `n` acceptable like the bare
name: some registered encoding, `n` or one registered later, is selected; and
the header `n;q=0` alone selects `n`, which the test's handler then sends as
`Content-Encoding`. -/
theorem zero_q_token_still_acceptable (lib : Codecs) (value n : GoString)
    (_hascii : isASCII value = true) (hn : n ∈ registrationOrder)
    (htok : ∃ t ∈ Split (ToLower value) ',', Contains t (n ++ [';', 'q', '=', '0']) = true) :
    matchAcceptEncoding (Split (ToLower value) ',') n = true ∧
      (∃ sel, negotiate lib (acceptEncoding value) = .ok sel ∧ sel ∈ registrationOrder ∧
        registrationOrder.indexOf n ≤ registrationOrder.indexOf sel) ∧
      negotiate lib (acceptEncoding (n ++ [';', 'q', '=', '0'])) = .ok n ∧
      ∀ body : Bytes, ∃ resp,
        serve lib (jsonHandler body) (acceptEncoding (n ++ [';', 'q', '=', '0'])) = .ok resp ∧
          resp.sentHeader contentEncodingKey = [n] := by
  obtain ⟨t, ht, hcon⟩ := htok
  have hacc : matchAcceptEncoding (Split (ToLower value) ',') n = true :=
    matchAcceptEncoding_of_token _ n t ht (Contains_of_append n _ t hcon)
  have hp : preferred (Split (ToLower ((acceptEncoding (n ++ [';', 'q', '=', '0'])).Get
      acceptEncodingKey)) ',') = n := by
    rw [acceptEncoding_Get]
    have : ∀ m ∈ registrationOrder,
        preferred (Split (ToLower (m ++ [';', 'q', '=', '0'])) ',') = m := by decide
    exact this n hn
  have hnil : n ≠ [] := by
    have : ∀ m ∈ registrationOrder, m ≠ [] := by decide
    exact this n hn
  refine ⟨hacc, ?_, ?_, fun body => ?_⟩
  · obtain ⟨h1, -, h3⟩ := preferred_some _ n hn hacc
    refine ⟨_, ?_, h1, h3 n hn hacc⟩
    rw [negotiate_eq, acceptEncoding_Get]
  · rw [negotiate_eq, hp]
  · obtain ⟨h1, h2, h3⟩ := jsonHandler_declares body
    obtain ⟨resp, e1, e2⟩ := serve_compress lib (jsonHandler body)
      (acceptEncoding (n ++ [';', 'q', '=', '0'])) (by rw [hp]; exact hnil) h1 h2 h3
    refine ⟨resp, e1, ?_⟩
    rw [e2, compressedHeader_contentEncoding, hp]

/-- C5 (amended) at `br, deflate;q=0`: `deflate` stays acceptable and `br` is
selected. -/
theorem zero_q_token_still_acceptable_witness :
    matchAcceptEncoding (Split (ToLower "br, deflate;q=0".toList) ',') deflateName = true ∧
      (∃ sel, negotiate sampleCodecs (acceptEncoding "br, deflate;q=0".toList) = .ok sel ∧
        sel ∈ registrationOrder ∧
        registrationOrder.indexOf deflateName ≤ registrationOrder.indexOf sel) ∧
      negotiate sampleCodecs (acceptEncoding (deflateName ++ [';', 'q', '=', '0'])) =
        .ok deflateName ∧
      ∀ body : Bytes, ∃ resp,
        serve sampleCodecs (jsonHandler body)
            (acceptEncoding (deflateName ++ [';', 'q', '=', '0'])) = .ok resp ∧
          resp.sentHeader contentEncodingKey = [deflateName] :=
  zero_q_token_still_acceptable sampleCodecs "br, deflate;q=0".toList deflateName
    (by decide) (by decide) ⟨" deflate;q=0".toList, by decide, by decide⟩

/-- C6 (as stated, refuted): for `br;q=0.1, gzip;q=0.9` the middleware of
`NewMiddleware` selects `br`, the encoding with the lower q-value. -/
theorem higher_q_not_selected :
    (∀ lib : Codecs,
        negotiate lib (acceptEncoding "br;q=0.1, gzip;q=0.9".toList) = .ok brName) ∧
      negotiate sampleCodecs (acceptEncoding "br;q=0.1, gzip;q=0.9".toList) ≠ .ok gzipName := by
  refine ⟨fun lib => ?_, ?_⟩
  · rw [negotiate_eq, acceptEncoding_Get]
    exact congrArg Except.ok (by decide)
  · rw [negotiate_eq, acceptEncoding_Get, ne_eq, Except.ok.injEq]
    decide

/-- C6 (amended): q-values are not read.  For a header `a;q=q₁, b;q=q₂` naming
two different registered encodings, with any q-values and in either order, the
selected encoding is the one of higher server precedence: `br` if one of them
is `br`, `gzip` otherwise. -/
theorem q_values_ignored (lib : Codecs) (a b q₁ q₂ : GoString)
    (ha : a ∈ registrationOrder) (hb : b ∈ registrationOrder) (hab : a ≠ b)
    (h₁ : isQValue q₁ = true) (h₂ : isQValue q₂ = true) :
    negotiate lib
        (acceptEncoding (a ++ [';', 'q', '='] ++ q₁ ++ [',', ' '] ++ b ++ [';', 'q', '='] ++ q₂)) =
      .ok (if a = brName ∨ b = brName then brName else gzipName) := by
  have hlow : ∀ t ∈ registrationOrder, ToLower t = t := by decide
  have hs : ToLower [';', 'q', '='] = [';', 'q', '='] := by decide
  have hc : ToLower [',', ' '] = [',', ' '] := by decide
  have hv : ToLower (a ++ [';', 'q', '='] ++ q₁ ++ [',', ' '] ++ b ++ [';', 'q', '='] ++ q₂) =
      a ++ ([';', 'q', '='] ++ (q₁ ++ ([',', ' '] ++ (b ++ ([';', 'q', '='] ++ q₂))))) := by
    simp only [ToLower_append, hlow a ha, hlow b hb, isQValue_ToLower _ h₁,
      isQValue_ToLower _ h₂, hs, hc, List.append_assoc]
  have hA : Contains (a ++ ([';', 'q', '='] ++ (q₁ ++ ([',', ' '] ++
      (b ++ ([';', 'q', '='] ++ q₂)))))) a = true := Contains_mid [] a _
  have hB : Contains (a ++ ([';', 'q', '='] ++ (q₁ ++ ([',', ' '] ++
      (b ++ ([';', 'q', '='] ++ q₂)))))) b = true := by
    apply Contains_append_right
    apply Contains_append_right
    apply Contains_append_right
    apply Contains_append_right
    exact Contains_mid [] b _
  have hq₁ : 'b' ∉ q₁ := isQValue_not_mem q₁ h₁ 'b' (by decide)
  have hq₂ : 'b' ∉ q₂ := isQValue_not_mem q₂ h₂ 'b' (by decide)
  rw [negotiate_eq, acceptEncoding_Get, hv]
  unfold preferred
  rw [matchAcceptEncoding_Split brName (by decide) (by decide),
    matchAcceptEncoding_Split gzipName (by decide) (by decide),
    matchAcceptEncoding_Split deflateName (by decide) (by decide)]
  have hgb : gzipName ≠ brName := by decide
  have hdb : deflateName ≠ brName := by decide
  have ha' : a = deflateName ∨ a = gzipName ∨ a = brName := by
    simpa [registrationOrder] using ha
  have hb' : b = deflateName ∨ b = gzipName ∨ b = brName := by
    simpa [registrationOrder] using hb
  rcases ha' with rfl | rfl | rfl <;> rcases hb' with rfl | rfl | rfl
  · exact absurd rfl hab
  · have hN : Contains (deflateName ++ ([';', 'q', '='] ++ (q₁ ++ ([',', ' '] ++
        (gzipName ++ ([';', 'q', '='] ++ q₂)))))) brName = false :=
      Contains_not_mem 'b' ['r'] _ (by simp [deflateName, gzipName, hq₁, hq₂])
    rw [hN, hB]
    simp only [Bool.false_eq_true, if_false, if_true, hdb, hgb, or_self]
  · rw [hB]
    simp only [if_true, or_true]
  · have hN : Contains (gzipName ++ ([';', 'q', '='] ++ (q₁ ++ ([',', ' '] ++
        (deflateName ++ ([';', 'q', '='] ++ q₂)))))) brName = false :=
      Contains_not_mem 'b' ['r'] _ (by simp [deflateName, gzipName, hq₁, hq₂])
    rw [hN, hA]
    simp only [Bool.false_eq_true, if_false, if_true, hdb, hgb, or_self]
  · exact absurd rfl hab
  · rw [hB]
    simp only [if_true, or_true]
  · rw [hA]
    simp only [if_true, true_or]
  · rw [hA]
    simp only [if_true, true_or]
  · exact absurd rfl hab

/-- C6 (amended) at `gzip;q=0.2, deflate;q=0.8`, which selects `gzip`. -/
theorem q_values_ignored_witness :
    negotiate sampleCodecs
        (acceptEncoding (gzipName ++ [';', 'q', '='] ++ ['0', '.', '2'] ++ [',', ' '] ++
          deflateName ++ [';', 'q', '='] ++ ['0', '.', '8'])) =
      .ok (if gzipName = brName ∨ deflateName = brName then brName else gzipName) :=
  q_values_ignored sampleCodecs gzipName deflateName ['0', '.', '2'] ['0', '.', '8']
    (by decide) (by decide) (by decide) (by decide) (by decide)

/-- C7 (as stated, refuted): the tokens `x-gzip` and `notgzip` are not
registered names, yet each of them, as the whole header, selects `gzip`. -/
theorem containing_token_selected :
    "x-gzip".toList ∉ registrationOrder ∧ "notgzip".toList ∉ registrationOrder ∧
      (∀ lib : Codecs, negotiate lib (acceptEncoding "x-gzip".toList) = .ok gzipName) ∧
      (∀ lib : Codecs, negotiate lib (acceptEncoding "notgzip".toList) = .ok gzipName) ∧
      negotiate sampleCodecs (acceptEncoding "x-gzip".toList) ≠ .ok [] := by
  refine ⟨by decide, by decide, fun lib => ?_, fun lib => ?_, ?_⟩
  · rw [negotiate_eq, acceptEncoding_Get]
    exact congrArg Except.ok (by decide)
  · rw [negotiate_eq, acceptEncoding_Get]
    exact congrArg Except.ok (by decide)
  · rw [negotiate_eq, acceptEncoding_Get, ne_eq, Except.ok.injEq]
    decide

/-- C7 (amended): for every header of ASCII characters the result is identity
exactly when no comma-separated token of the lowered header contains one of
the registered names as a substring, and then the response is the one the
handler produces on its own, with no `Content-Encoding` unless the handler
names that key.  A token that merely contains a registered name makes that
name acceptable: some registered encoding is selected, that name or one of
higher precedence (registered later), and that name itself when no token
contains a name of higher precedence. -/
theorem no_containing_token_is_identity (lib : Codecs) (value : GoString)
    (_hascii : isASCII value = true) :
    (negotiate lib (acceptEncoding value) = .ok [] ↔
        ∀ t ∈ Split (ToLower value) ',', ∀ n ∈ registrationOrder, Contains t n = false) ∧
      ((∀ t ∈ Split (ToLower value) ',', ∀ n ∈ registrationOrder, Contains t n = false) →
        ∀ next : HandlerProg, ∃ resp, serve lib next (acceptEncoding value) = .ok resp ∧
          resp = serveDirect next ResponseWriter.fresh ∧
          resp.sentHeader = declaredHeader next Header.empty ∧
          ((∀ op ∈ next, op.touches contentEncodingKey = false) →
            resp.sentHeader contentEncodingKey = [])) ∧
      (∀ t ∈ Split (ToLower value) ',', ∀ n ∈ registrationOrder, Contains t n = true →
        ∃ sel, negotiate lib (acceptEncoding value) = .ok sel ∧ sel ∈ registrationOrder ∧
          registrationOrder.indexOf n ≤ registrationOrder.indexOf sel ∧
          ((∀ m ∈ registrationOrder,
              registrationOrder.indexOf n < registrationOrder.indexOf m →
              ∀ u ∈ Split (ToLower value) ',', Contains u m = false) →
            sel = n)) := by
  have hnone : (∀ t ∈ Split (ToLower value) ',', ∀ n ∈ registrationOrder,
      Contains t n = false) → preferred (Split (ToLower value) ',') = [] := by
    intro h
    apply preferred_none
    intro n hn
    rw [matchAcceptEncoding_false]
    exact fun t ht => h t ht n hn
  refine ⟨⟨?_, ?_⟩, ?_, ?_⟩
  · intro h t ht n hn
    rw [negotiate_eq, acceptEncoding_Get, Except.ok.injEq] at h
    cases hcon : Contains t n with
    | false => rfl
    | true =>
      exact absurd h (preferred_ne_nil _ n hn (matchAcceptEncoding_of_token _ n t ht hcon))
  · intro h
    rw [negotiate_eq, acceptEncoding_Get, hnone h]
  · intro h next
    have hp : preferred (Split (ToLower ((acceptEncoding value).Get acceptEncodingKey)) ',') =
        [] := by
      rw [acceptEncoding_Get]; exact hnone h
    refine ⟨_, serve_passthrough lib next (acceptEncoding value) (Or.inl hp), rfl, ?_, ?_⟩
    · exact serveDirect_sentHeader next ResponseWriter.fresh rfl
    · intro hu
      rw [serveDirect_sentHeader next ResponseWriter.fresh rfl]
      exact declaredHeader_no_contentEncoding next hu
  · intro t ht n hn hcon
    have hacc := matchAcceptEncoding_of_token _ n t ht hcon
    obtain ⟨h1, h2, h3⟩ := preferred_some _ n hn hacc
    refine ⟨_, by rw [negotiate_eq, acceptEncoding_Get], h1, h3 n hn hacc, ?_⟩
    intro hhigh
    have hle := h3 n hn hacc
    rcases Nat.lt_or_ge (registrationOrder.indexOf n)
        (registrationOrder.indexOf (preferred (Split (ToLower value) ','))) with hlt | hge
    · have hf := (matchAcceptEncoding_false _ _).2 (hhigh _ h1 hlt)
      rw [hf] at h2
      exact absurd h2 (by decide)
    · have hinj : ∀ a ∈ registrationOrder, ∀ b ∈ registrationOrder,
          registrationOrder.indexOf a = registrationOrder.indexOf b → a = b := by decide
      exact hinj _ h1 _ hn (Nat.le_antisymm hge hle)

/-- C7 (amended) at `x-gzip,br`: the token `x-gzip` contains `gzip`, and `br`,
of higher precedence, is selected. -/
theorem no_containing_token_is_identity_witness :
    (negotiate sampleCodecs (acceptEncoding "x-gzip,br".toList) = .ok [] ↔
        ∀ t ∈ Split (ToLower "x-gzip,br".toList) ',',
          ∀ n ∈ registrationOrder, Contains t n = false) ∧
      ((∀ t ∈ Split (ToLower "x-gzip,br".toList) ',',
          ∀ n ∈ registrationOrder, Contains t n = false) →
        ∀ next : HandlerProg, ∃ resp,
          serve sampleCodecs next (acceptEncoding "x-gzip,br".toList) = .ok resp ∧
          resp = serveDirect next ResponseWriter.fresh ∧
          resp.sentHeader = declaredHeader next Header.empty ∧
          ((∀ op ∈ next, op.touches contentEncodingKey = false) →
            resp.sentHeader contentEncodingKey = [])) ∧
      (∀ t ∈ Split (ToLower "x-gzip,br".toList) ',',
        ∀ n ∈ registrationOrder, Contains t n = true →
        ∃ sel, negotiate sampleCodecs (acceptEncoding "x-gzip,br".toList) = .ok sel ∧
          sel ∈ registrationOrder ∧
          registrationOrder.indexOf n ≤ registrationOrder.indexOf sel ∧
          ((∀ m ∈ registrationOrder,
              registrationOrder.indexOf n < registrationOrder.indexOf m →
              ∀ u ∈ Split (ToLower "x-gzip,br".toList) ',', Contains u m = false) →
            sel = n)) :=
  no_containing_token_is_identity sampleCodecs "x-gzip,br".toList (by decide)

/-! ## Encoder construction -/

/-- C10: `encoderGzip` and `encoderDeflate` return nil exactly when the
constructor they call returns an error, which for the standard library's
constructors is exactly when the level is outside `-2..9`; `encoderBrotli`
never returns nil; so at `compressionLevel`, the level of the compressor of
`NewMiddleware`, all three registered encoders yield a writer, and every
request for which an encoding is selected gets a non-nil writer. -/
theorem encoders_nil_iff_level_rejected (lib : Codecs) (gz fl br : Int → Encoder)
    (level : Int) :
    (encoderGzip lib level = none ↔ ∃ err, lib.gzipNewWriterLevel level = .error err) ∧
      (encoderDeflate lib level = none ↔ ∃ err, lib.flateNewWriter level = .error err) ∧
      encoderBrotli lib level ≠ none ∧
      (encoderGzip (goCodecs gz fl br) level = none ↔ (level < -2 ∨ 9 < level)) ∧
      (encoderDeflate (goCodecs gz fl br) level = none ↔ (level < -2 ∨ 9 < level)) ∧
      encoderGzip (goCodecs gz fl br) compressionLevel = some (gz compressionLevel) ∧
      encoderDeflate (goCodecs gz fl br) compressionLevel = some (fl compressionLevel) ∧
      encoderBrotli (goCodecs gz fl br) compressionLevel = some (br compressionLevel) ∧
      ∀ r : Header, ∃ c, NewMiddleware (goCodecs gz fl br) = .ok c ∧
        c.level = compressionLevel ∧
        ((c.selectEncoder r).2 ≠ [] → ∃ e, (c.selectEncoder r).1 = some e) := by
  refine ⟨?_, ?_, ?_, ?_, ?_, ?_, ?_, ?_, ?_⟩
  · unfold encoderGzip
    cases lib.gzipNewWriterLevel level <;> simp
  · unfold encoderDeflate
    cases lib.flateNewWriter level <;> simp
  · simp [encoderBrotli]
  · simp only [encoderGzip, goCodecs, HuffmanOnly, BestCompression]
    by_cases h : level < -2 ∨ level > 9
    · simp only [h, if_true, true_iff]
    · simp only [h, if_false]
      constructor
      · intro e; cases e
      · exact False.elim
  · simp only [encoderDeflate, goCodecs, NoCompression, HuffmanOnly, BestSpeed,
      DefaultCompression]
    by_cases h0 : level = 0
    · subst h0; simp
    by_cases h1 : level = -2
    · subst h1; simp
    by_cases h2 : level = 1
    · subst h2; simp
    by_cases h3 : level = -1
    · subst h3; simp
    by_cases h4 : 2 ≤ level ∧ level ≤ 9
    · simp only [h0, h1, h2, h3, h4, if_false, and_self, if_true]
      constructor
      · intro e; cases e
      · intro h; omega
    · simp only [h0, h1, h2, h3, h4, if_false, true_iff]
      omega
  · rfl
  · rfl
  · rfl
  · intro r
    obtain ⟨c, hc, hs⟩ := selectEncoder_eq (goCodecs gz fl br) r
    obtain ⟨c', hc', -, hl, -⟩ := NewMiddleware_spec (goCodecs gz fl br)
    have hcc : c' = c := by
      rw [hc] at hc'
      exact (Except.ok.inj hc').symm
    subst hcc
    refine ⟨c', hc, hl, ?_⟩
    rw [hs]
    simp only
    unfold preferred
    have hgb : gzipName ≠ brName := by decide
    have hdb : deflateName ≠ brName := by decide
    have hdg : deflateName ≠ gzipName := by decide
    split
    · intro _; exact ⟨br compressionLevel, by simp [encoderOf]; rfl⟩
    · split
      · intro _; exact ⟨gz compressionLevel, by simp [encoderOf, hgb]; rfl⟩
      · split
        · intro _; exact ⟨fl compressionLevel, by simp [encoderOf, hdb, hdg]; rfl⟩
        · intro h; exact absurd rfl h

/-! ## Further properties -/

/-- The compressor `NewMiddleware` builds, for every codec library: the
construction does not panic, the precedence list is `br, gzip, deflate` (the
registration order reversed), the level is `compressionLevel`, and the content
types are chi's ten defaults without wildcards. -/
theorem NewMiddleware_compressor (lib : Codecs) :
    ∃ c, NewMiddleware lib = .ok c ∧
      c.encodingPrecedence = [brName, gzipName, deflateName] ∧
      c.encodingPrecedence = registrationOrder.reverse ∧
      c.level = 5 ∧
      c.allowedTypes = defaultCompressibleContentTypes ∧
      c.allowedTypes.length = 10 ∧
      c.allowedWildcards = [] := by
  obtain ⟨c, hc, hp, hl, ht, hw, -⟩ := NewMiddleware_spec lib
  refine ⟨c, hc, hp, hp.trans (by decide), hl, ht, ?_, hw⟩
  rw [ht]; rfl

/-- The table of `TestMiddleware` on the server side, for every codec library:
for the request header each case builds, the test's handler answers with
status 200 and the expected `Content-Encoding` (none for the case without
accepted encodings). -/
theorem TestMiddleware_expected (lib : Codecs) :
    ∀ case ∈ testTable, ∃ resp,
      serve lib (jsonHandler testStr) (testRequest case.1) = .ok resp ∧
        resp.status = 200 ∧ resp.sentHeader.Get contentEncodingKey = case.2 := by
  have key : ∀ (encodings : List GoString) (expected : GoString),
      preferred (Split (ToLower ((testRequest encodings).Get acceptEncodingKey)) ',') =
        expected → expected ≠ [] →
      ∃ resp, serve lib (jsonHandler testStr) (testRequest encodings) = .ok resp ∧
        resp.status = 200 ∧ resp.sentHeader.Get contentEncodingKey = expected := by
    intro encodings expected he hne
    refine ⟨_, serve_jsonHandler_compressed lib (testRequest encodings) testStr
      (by rw [he]; exact hne), rfl, ?_⟩
    dsimp only [Header.Get]
    rw [contentEncodingKey_canonical, compressedHeader_contentEncoding]
    exact he
  intro case hcase
  simp only [testTable, List.mem_cons, List.mem_singleton, List.not_mem_nil, or_false] at hcase
  rcases hcase with rfl | rfl | rfl | rfl | rfl | rfl
  · refine ⟨_, serve_passthrough lib (jsonHandler testStr) (testRequest [])
      (Or.inl (by decide)), by decide, by decide⟩
  · exact key _ _ (by decide) (by decide)
  · exact key _ _ (by decide) (by decide)
  · exact key _ _ (by decide) (by decide)
  · exact key _ _ (by decide) (by decide)
  · exact key _ _ (by decide) (by decide)

/-- The compressed response of the test's handler, for the standard constructors
over any stream behaviours and each single accepted name: status 200, `Vary:
Accept-Encoding`, no `Content-Length`, the declared `Content-Type`, and a body
that is what the selected writer, made at level 5, emits for the one write
followed by what it emits on close. -/
theorem compressed_body_is_encoder_output (gz fl br : Int → Encoder) (body : Bytes) :
    (∃ resp, serve (goCodecs gz fl br) (jsonHandler body) (acceptEncoding gzipName) = .ok resp ∧
        resp.status = 200 ∧ resp.sentHeader varyKey = [acceptEncodingKey] ∧
        resp.sentHeader contentLengthKey = [] ∧
        resp.sentHeader contentTypeKey = ["application/json".toList] ∧
        resp.body = (gz 5).write [] body ++ (gz 5).close [body]) ∧
      (∃ resp, serve (goCodecs gz fl br) (jsonHandler body) (acceptEncoding deflateName) =
          .ok resp ∧
        resp.status = 200 ∧ resp.sentHeader varyKey = [acceptEncodingKey] ∧
        resp.sentHeader contentLengthKey = [] ∧
        resp.sentHeader contentTypeKey = ["application/json".toList] ∧
        resp.body = (fl 5).write [] body ++ (fl 5).close [body]) ∧
      (∃ resp, serve (goCodecs gz fl br) (jsonHandler body) (acceptEncoding brName) = .ok resp ∧
        resp.status = 200 ∧ resp.sentHeader varyKey = [acceptEncodingKey] ∧
        resp.sentHeader contentLengthKey = [] ∧
        resp.sentHeader contentTypeKey = ["application/json".toList] ∧
        resp.body = (br 5).write [] body ++ (br 5).close [body]) := by
  have hv : ∀ (h : Header) (n : GoString), compressedHeader h n varyKey = h varyKey ++
      [acceptEncodingKey] := by
    intro h n
    have h1 : varyKey ≠ contentLengthKey := by decide
    have h2 : varyKey ≠ contentEncodingKey := by decide
    simp [compressedHeader, Header.Del, Header.Add, Header.Set, h1, h2,
      contentEncodingKey_canonical, contentLengthKey_canonical, varyKey_canonical]
  have hl : ∀ (h : Header) (n : GoString), compressedHeader h n contentLengthKey = [] := by
    intro h n
    simp [compressedHeader, Header.Del, contentLengthKey_canonical]
  have ht : ∀ (h : Header) (n : GoString), compressedHeader h n contentTypeKey =
      h contentTypeKey := by
    intro h n
    have h1 : contentTypeKey ≠ contentLengthKey := by decide
    have h2 : contentTypeKey ≠ contentEncodingKey := by decide
    have h3 : contentTypeKey ≠ varyKey := by decide
    simp [compressedHeader, Header.Del, Header.Add, Header.Set, h1, h2, h3,
      contentEncodingKey_canonical, contentLengthKey_canonical, varyKey_canonical]
  have hp : ∀ n ∈ registrationOrder,
      preferred (Split (ToLower ((acceptEncoding n).Get acceptEncodingKey)) ',') = n := by
    intro n hn
    rw [acceptEncoding_Get]
    have : ∀ m ∈ registrationOrder, preferred (Split (ToLower m) ',') = m := by decide
    exact this n hn
  refine ⟨?_, ?_, ?_⟩
  · refine ⟨_, serve_jsonHandler_compressed (goCodecs gz fl br) (acceptEncoding gzipName) body
      (by rw [hp _ (by decide)]; decide), rfl, ?_, ?_, ?_, ?_⟩
    · dsimp only
      rw [hv]; rfl
    · dsimp only
      rw [hl]
    · dsimp only
      rw [ht]; rfl
    · dsimp only
      rw [hp gzipName (by decide)]
      rfl
  · refine ⟨_, serve_jsonHandler_compressed (goCodecs gz fl br) (acceptEncoding deflateName) body
      (by rw [hp _ (by decide)]; decide), rfl, ?_, ?_, ?_, ?_⟩
    · dsimp only
      rw [hv]; rfl
    · dsimp only
      rw [hl]
    · dsimp only
      rw [ht]; rfl
    · dsimp only
      rw [hp deflateName (by decide)]
      rfl
  · refine ⟨_, serve_jsonHandler_compressed (goCodecs gz fl br) (acceptEncoding brName) body
      (by rw [hp _ (by decide)]; decide), rfl, ?_, ?_, ?_, ?_⟩
    · dsimp only
      rw [hv]; rfl
    · dsimp only
      rw [hl]
    · dsimp only
      rw [ht]; rfl
    · dsimp only
      rw [hp brName (by decide)]
      rfl

theorem NewCompressor_ok (lib : Codecs) (level : Int)
    (types allowedTypes allowedWildcards : List GoString)
    (h : (types = [] ∧ allowedTypes = defaultCompressibleContentTypes ∧ allowedWildcards = []) ∨
      (types.length > 0 ∧ classifyTypes types ([], []) = .ok (allowedTypes, allowedWildcards))) :
    ∃ c, NewCompressor lib level types = .ok c ∧ c.allowedTypes = allowedTypes ∧
      c.allowedWildcards = allowedWildcards ∧
      c.encodingPrecedence = [gzipName, deflateName] ∧ c.level = level := by
  obtain ⟨c₁, h₁, p₁, l₁, t₁, w₁, -, -⟩ :=
    SetEncoder_spec
      { encoders := fun _ => none
        pooledEncoders := fun _ => none
        allowedTypes := allowedTypes
        allowedWildcards := allowedWildcards
        encodingPrecedence := []
        level := level } deflateName (encoderDeflate lib) [] (by decide) rfl
  obtain ⟨c₂, h₂, p₂, l₂, t₂, w₂, -, -⟩ :=
    SetEncoder_spec c₁ gzipName (encoderGzip lib) [deflateName] (by decide)
      (by rw [p₁]; decide)
  refine ⟨c₂, ?_, by rw [t₂, t₁], by rw [w₂, w₁], by rw [p₂]; rfl, by rw [l₂, l₁]⟩
  unfold NewCompressor
  rcases h with ⟨rfl, rfl, rfl⟩ | ⟨hlen, hcl⟩
  · simp only [List.length_nil, gt_iff_lt, lt_self_iff_false, if_false, bind, Except.bind,
      pure, Except.pure, h₁, h₂]
  · simp only [hlen, if_true, hcl, bind, Except.bind, pure, Except.pure, h₁, h₂]

theorem NewCompressor_error (lib : Codecs) (level : Int) (types : List GoString)
    (msg : String) (hlen : types.length > 0)
    (h : classifyTypes types ([], []) = .error msg) :
    NewCompressor lib level types = .error msg := by
  unfold NewCompressor
  simp only [hlen, if_true, h, bind, Except.bind]

/-- The cases of the wildcard table kept (commented out) in
`middleware_test.go`, on `NewCompressor` at level 5 for every codec library:
the defaults give ten exact types; `audio/*wav` and `application*/*` panic;
`text/*` gives one wildcard; `audio/wav, text/*` one exact type and one
wildcard. -/
theorem NewCompressor_wildcards (lib : Codecs) :
    (∃ c, NewCompressor lib 5 [] = .ok c ∧ c.allowedTypes.length = 10 ∧
        c.allowedWildcards.length = 0) ∧
      (∃ c, NewCompressor lib 5 ["text/plain".toList, "text/html".toList] = .ok c ∧
        c.allowedTypes.length = 2 ∧ c.allowedWildcards.length = 0) ∧
      (∃ msg, NewCompressor lib 5 ["audio/*wav".toList] = .error msg) ∧
      (∃ msg, NewCompressor lib 5 ["application*/*".toList] = .error msg) ∧
      (∃ c, NewCompressor lib 5 ["text/*".toList] = .ok c ∧ c.allowedTypes.length = 0 ∧
        c.allowedWildcards = ["text".toList]) ∧
      (∃ c, NewCompressor lib 5 ["audio/wav".toList, "text/*".toList] = .ok c ∧
        c.allowedTypes.length = 1 ∧ c.allowedWildcards.length = 1) := by
  refine ⟨?_, ?_, ?_, ?_, ?_, ?_⟩
  · obtain ⟨c, hc, ht, hw, -⟩ := NewCompressor_ok lib 5 [] defaultCompressibleContentTypes []
      (Or.inl ⟨rfl, rfl, rfl⟩)
    exact ⟨c, hc, by rw [ht]; rfl, by rw [hw]; rfl⟩
  · obtain ⟨c, hc, ht, hw, -⟩ := NewCompressor_ok lib 5
      ["text/plain".toList, "text/html".toList] ["text/html".toList, "text/plain".toList] []
      (Or.inr ⟨by decide, rfl⟩)
    exact ⟨c, hc, by rw [ht]; rfl, by rw [hw]; rfl⟩
  · exact ⟨_, NewCompressor_error lib 5 ["audio/*wav".toList] _ (by decide) rfl⟩
  · exact ⟨_, NewCompressor_error lib 5 ["application*/*".toList] _ (by decide) rfl⟩
  · obtain ⟨c, hc, ht, hw, -⟩ := NewCompressor_ok lib 5 ["text/*".toList] [] ["text".toList]
      (Or.inr ⟨by decide, rfl⟩)
    exact ⟨c, hc, by rw [ht]; rfl, hw⟩
  · obtain ⟨c, hc, ht, hw, -⟩ := NewCompressor_ok lib 5 ["audio/wav".toList, "text/*".toList]
      ["audio/wav".toList] ["text".toList] (Or.inr ⟨by decide, rfl⟩)
    exact ⟨c, hc, by rw [ht]; rfl, by rw [hw]; rfl⟩

/-- Header keys are looked up in canonical form, for every codec library and
body: a handler that sets `content-type: application/json` in lower case is
compressed for `Accept-Encoding: gzip`, and one that sets `content-encoding:
identity` in lower case keeps that header, with the body as written. -/
theorem header_keys_canonical (lib : Codecs) (body : Bytes) :
    (∃ resp, serve lib [.headerSet "content-type".toList "application/json".toList,
          .write body] (acceptEncoding gzipName) = .ok resp ∧
        resp.sentHeader contentEncodingKey = [gzipName]) ∧
      (∃ resp, serve lib [.headerSet contentTypeKey "application/json".toList,
          .headerSet "content-encoding".toList "identity".toList, .write body]
          (acceptEncoding gzipName) = .ok resp ∧
        resp.sentHeader contentEncodingKey = ["identity".toList] ∧ resp.body = body) := by
  have hp : preferred (Split (ToLower ((acceptEncoding gzipName).Get acceptEncodingKey)) ',') =
      gzipName := by
    rw [acceptEncoding_Get]; decide
  refine ⟨?_, ?_⟩
  · have hd : declaredHeader [.headerSet "content-type".toList "application/json".toList,
        .write body] Header.empty =
        Header.empty.Set "content-type".toList "application/json".toList := rfl
    obtain ⟨resp, h1, h2⟩ := serve_compress lib
      [.headerSet "content-type".toList "application/json".toList, .write body]
      (acceptEncoding gzipName) (by rw [hp]; decide) rfl
      (by rw [hd]; decide) (by rw [hd]; decide)
    refine ⟨resp, h1, ?_⟩
    rw [h2, compressedHeader_contentEncoding, hp]
  · have hd : declaredHeader [.headerSet contentTypeKey "application/json".toList,
        .headerSet "content-encoding".toList "identity".toList, .write body] Header.empty =
        (Header.empty.Set contentTypeKey "application/json".toList).Set
          "content-encoding".toList "identity".toList := rfl
    refine ⟨_, serve_passthrough lib _ (acceptEncoding gzipName)
      (Or.inr (Or.inr (Or.inl (by rw [hd]; decide)))), ?_, ?_⟩
    · rw [serveDirect_sentHeader _ ResponseWriter.fresh rfl]
      show declaredHeader [.headerSet contentTypeKey "application/json".toList,
        .headerSet "content-encoding".toList "identity".toList, .write body] Header.empty
        contentEncodingKey = _
      rw [hd]
      decide
    · rw [serveDirect_body]
      simp [ResponseWriter.fresh, writtenBytes]

end Compression
